import Mathlib

/-!
Verification of the distributed ECS engine coordinator core.

This file is a shallow embedding of the Rust sources:
  crates/engine_component/src/{entity,archetype,query}.rs
  crates/engine_app/src/{world,scheduler,registry,tick}.rs
  crates/engine_system/src/runner.rs (per-tick message handling)
Machine integers (u64) are modelled as `Nat`, with wrapping arithmetic
`% 2 ^ 64` made explicit where the source performs wrapping arithmetic.
Rust `HashMap`s are modelled as association lists in insertion order
(Rust's iteration order is unspecified; no theorem below depends on it).
Rust `BTreeSet<ComponentTypeId>` values are modelled as sorted
duplicate-free `List Nat` values.
-/

namespace Engine

/-! ### Association-list model of `HashMap` -/

/-- `HashMap::get`: the value of the first entry with the given key. -/
def alGet {κ ν : Type} [DecidableEq κ] (k : κ) : List (κ × ν) → Option ν
  | [] => none
  | e :: t => if e.1 = k then some e.2 else alGet k t

/-- `HashMap::insert`: replace the value of an existing entry, or append a
new entry. -/
def alInsert {κ ν : Type} [DecidableEq κ] (k : κ) (v : ν) : List (κ × ν) → List (κ × ν)
  | [] => [(k, v)]
  | e :: t => if e.1 = k then (k, v) :: t else e :: alInsert k v t

/-- `HashMap::get_mut` followed by an in-place update: apply `f` to the value
of the entry with the given key, if present. -/
def alModify {κ ν : Type} [DecidableEq κ] (k : κ) (f : ν → ν) : List (κ × ν) → List (κ × ν)
  | [] => []
  | e :: t => if e.1 = k then (e.1, f e.2) :: t else e :: alModify k f t

/-- `HashMap::remove` (without returning the value). -/
def alRemove {κ ν : Type} [DecidableEq κ] (k : κ) : List (κ × ν) → List (κ × ν)
  | [] => []
  | e :: t => if e.1 = k then t else e :: alRemove k t

/-- `Iterator::position`: index of the first occurrence of `x`. -/
def listPos {α : Type} [DecidableEq α] (x : α) : List α → Option Nat
  | [] => none
  | y :: t => if y = x then some 0 else (listPos x t).map (· + 1)

/-- `Vec::swap_remove`: overwrite position `pos` with the last element and
pop the last element.  (The source only calls this with `pos` in bounds.) -/
def swapRemove {α : Type} (l : List α) (pos : Nat) : List α :=
  match l.getLast? with
  | none => l
  | some x => (l.set pos x).dropLast

/-- Overwrite the bytes of `l` starting at `start` with `repl`
(used to model `copy_from_slice` on a subslice). -/
def writeRange (l : List Nat) (start : Nat) (repl : List Nat) : List Nat :=
  l.take start ++ repl ++ l.drop (start + repl.length)

/-- In-place update of the element at index `i` (`Vec` index-assignment);
out-of-range indices leave the list unchanged. -/
def listModify {α : Type} (i : Nat) (f : α → α) : List α → List α
  | [] => []
  | x :: t =>
    match i with
    | 0 => f x :: t
    | j + 1 => x :: listModify j f t

/-! ### engine_component: entities, archetypes, columns -/

/-- `Entity(pub u64)` — an opaque 64-bit identifier; `0` is the invalid
sentinel. -/
abbrev Entity := Nat

/-- `ComponentTypeId(pub u64)`. -/
abbrev ComponentTypeId := Nat

/-- `ArchetypeId(pub u64)`. -/
abbrev ArchetypeId := Nat

/-- `Entity::is_valid`. -/
def Entity.is_valid (e : Entity) : Bool := e ≠ 0

/-- `ArchetypeId::from_component_types`: the source feeds the sorted type set
through `DefaultHasher` (an unspecified deterministic 64-bit hash of the
sorted sequence).  We model it as a deterministic injective encoding of the
sorted list; hash collisions are assumed absent. -/
def ArchetypeId.from_component_types (types : List ComponentTypeId) : ArchetypeId :=
  Encodable.encode types

/-- `EntityAllocator { next_id: u64 }`. -/
structure EntityAllocator where
  next_id : Nat
deriving DecidableEq

/-- `EntityAllocator::new`: ids start at 1. -/
def EntityAllocator.new : EntityAllocator := ⟨1⟩

/-- `EntityAllocator::allocate`: returns the current id and increments the
counter (u64 wrapping made explicit). -/
def EntityAllocator.allocate (a : EntityAllocator) : Entity × EntityAllocator :=
  (a.next_id, ⟨(a.next_id + 1) % 2 ^ 64⟩)

/-- `Column { type_id, item_size, data }`: raw byte storage, one `item_size`
sized slot per entity row. -/
structure Column where
  type_id : ComponentTypeId
  item_size : Nat
  data : List Nat
deriving DecidableEq

/-- `Column::new`. -/
def Column.new (type_id : ComponentTypeId) (item_size : Nat) : Column :=
  ⟨type_id, item_size, []⟩

/-- `Column::len`: number of stored component instances.  (The source guards
`item_size == 0` by returning 0; `Nat` division by zero already yields 0.) -/
def Column.len (c : Column) : Nat := c.data.length / c.item_size

/-- `Column::push_raw`.  The source asserts `bytes.len() == item_size`;
theorems that rely on alignment carry that as a hypothesis. -/
def Column.push_raw (c : Column) (bytes : List Nat) : Column :=
  { c with data := c.data ++ bytes }

/-- `Column::get_raw`: the byte slice of row `index`, if fully in bounds. -/
def Column.get_raw (c : Column) (index : Nat) : Option (List Nat) :=
  let start := index * c.item_size
  if start + c.item_size > c.data.length then none
  else some ((c.data.drop start).take c.item_size)

/-- The write performed by `TickLoop::merge_shard` on one column row:
`get_raw_mut` followed by `copy_from_slice` of the common-length byte
pre-segment (`copy_len = min(dst.len(), bytes.len())`).  If the row is out of
bounds (`get_raw_mut` returns `None`) the column is unchanged. -/
def Column.write_at (c : Column) (index : Nat) (bytes : List Nat) : Column :=
  let start := index * c.item_size
  if start + c.item_size > c.data.length then c
  else
    let copy_len := min c.item_size bytes.length
    { c with data := writeRange c.data start (bytes.take copy_len) }

/-- The per-column body of `World::despawn`'s swap-remove loop: if the column
has a row at `pos`, copy the last row's bytes over row `pos` (when distinct)
and truncate away the last row. -/
def Column.swap_remove_row (c : Column) (pos : Nat) : Column :=
  if c.len > pos then
    let last := c.len - 1
    let d :=
      if pos ≠ last then
        writeRange c.data (pos * c.item_size) ((c.data.drop (last * c.item_size)).take c.item_size)
      else c.data
    { c with data := d.take (last * c.item_size) }
  else c

/-- `ArchetypeTable`: SoA storage for all entities sharing a type set. -/
structure ArchetypeTable where
  id : ArchetypeId
  component_types : List ComponentTypeId
  entities : List Entity
  columns : List Column
deriving DecidableEq

/-- `ArchetypeTable::new`: one column per component type, in type-set order,
zipped against the caller's `item_sizes` (`zip` truncates at the shorter). -/
def ArchetypeTable.new (component_types : List ComponentTypeId) (item_sizes : List Nat) :
    ArchetypeTable where
  id := ArchetypeId.from_component_types component_types
  component_types := component_types
  entities := []
  columns := (component_types.zip item_sizes).map fun p => Column.new p.1 p.2

/-- `ArchetypeTable::len`. -/
def ArchetypeTable.len (t : ArchetypeTable) : Nat := t.entities.length

/-- `ArchetypeTable::has_component`. -/
def ArchetypeTable.has_component (t : ArchetypeTable) (type_id : ComponentTypeId) : Bool :=
  t.component_types.contains type_id

/-- `ArchetypeTable::column_index`: position of the type in the sorted set. -/
def ArchetypeTable.column_index (t : ArchetypeTable) (type_id : ComponentTypeId) : Option Nat :=
  listPos type_id t.component_types

/-- `ArchetypeTable::entity_row`: position of the entity in `entities`. -/
def ArchetypeTable.entity_row (t : ArchetypeTable) (entity : Entity) : Option Nat :=
  listPos entity t.entities

/-! ### engine_component: query descriptors -/

/-- `QueryFilter`. -/
inductive QueryFilter
  | With (t : ComponentTypeId)
  | Without (t : ComponentTypeId)
  | Changed (t : ComponentTypeId)
deriving DecidableEq

/-- `QueryDescriptor`: four lists of component type ids. -/
structure QueryDescriptor where
  reads : List ComponentTypeId
  writes : List ComponentTypeId
  optionals : List ComponentTypeId
  filters : List QueryFilter
deriving DecidableEq

/-- `QueryDescriptor::new`. -/
def QueryDescriptor.new : QueryDescriptor := ⟨[], [], [], []⟩

/-- `QueryDescriptor::read` builder. -/
def QueryDescriptor.read (q : QueryDescriptor) (t : ComponentTypeId) : QueryDescriptor :=
  { q with reads := q.reads ++ [t] }

/-- `QueryDescriptor::write` builder. -/
def QueryDescriptor.write (q : QueryDescriptor) (t : ComponentTypeId) : QueryDescriptor :=
  { q with writes := q.writes ++ [t] }

/-- `QueryDescriptor::optional` builder. -/
def QueryDescriptor.optional (q : QueryDescriptor) (t : ComponentTypeId) : QueryDescriptor :=
  { q with optionals := q.optionals ++ [t] }

/-- `QueryDescriptor::required_types`: reads ++ writes. -/
def QueryDescriptor.required_types (q : QueryDescriptor) : List ComponentTypeId :=
  q.reads ++ q.writes

/-- `QueryDescriptor::all_accessed_types`. -/
def QueryDescriptor.all_accessed_types (q : QueryDescriptor) : List ComponentTypeId :=
  q.reads ++ q.writes ++ q.optionals

/-- `QueryDescriptor::conflicts_with`: some write of one side overlaps the
other side's reads or writes. -/
def QueryDescriptor.conflicts_with (q other : QueryDescriptor) : Bool :=
  (q.writes.any fun w => other.reads.contains w || other.writes.contains w) ||
  (other.writes.any fun w => q.reads.contains w || q.writes.contains w)

/-! ### engine_app/world.rs -/

/-- `World`: allocator, archetype tables keyed by id, entity→archetype map,
and the type-set→archetype index. -/
structure World where
  allocator : EntityAllocator
  archetypes : List (ArchetypeId × ArchetypeTable)
  entity_archetype : List (Entity × ArchetypeId)
  type_set_to_archetype : List (List ComponentTypeId × ArchetypeId)
deriving DecidableEq

/-- `World::new`. -/
def World.new : World :=
  { allocator := EntityAllocator.new
    archetypes := []
    entity_archetype := []
    type_set_to_archetype := [] }

/-- `BTreeSet::insert` on a sorted duplicate-free list. -/
def btreeInsert (x : Nat) : List Nat → List Nat
  | [] => [x]
  | y :: t =>
    if x < y then x :: y :: t
    else if x = y then y :: t
    else y :: btreeInsert x t

/-- `collect::<BTreeSet<_>>()`: sorted deduplicated contents of a list. -/
def btreeOfList (l : List Nat) : List Nat :=
  l.foldl (fun s x => btreeInsert x s) []

/-- `World::get_or_create_archetype`. -/
def World.get_or_create_archetype (w : World) (component_types : List ComponentTypeId)
    (item_sizes : List Nat) : ArchetypeId × World :=
  match alGet component_types w.type_set_to_archetype with
  | some id => (id, w)
  | none =>
    let table := ArchetypeTable.new component_types item_sizes
    let id := table.id
    (id, { w with
            archetypes := alInsert id table w.archetypes
            type_set_to_archetype := alInsert component_types id w.type_set_to_archetype })

/-- `World::spawn_empty`: allocate an id; no archetype, no map entry. -/
def World.spawn_empty (w : World) : Entity × World :=
  let (e, a) := w.allocator.allocate
  (e, { w with allocator := a })

/-- `World::spawn`: allocate, locate-or-create the archetype, append the
entity to the table's entity list (columns are left unfilled), record the
entity→archetype mapping. -/
def World.spawn (w : World) (component_types : List ComponentTypeId)
    (item_sizes : List Nat) : Entity × World :=
  let (entity, a) := w.allocator.allocate
  let w := { w with allocator := a }
  let (archetype_id, w) := w.get_or_create_archetype component_types item_sizes
  let w := { w with
              archetypes := alModify archetype_id
                (fun table => { table with entities := table.entities ++ [entity] })
                w.archetypes }
  (entity, { w with entity_archetype := alInsert entity archetype_id w.entity_archetype })

/-- The body of `World::spawn_with_data`'s write loop: push one blob into
the column matching its type (skipped when the type has no column). -/
def pushComponentData (table : ArchetypeTable) (p : ComponentTypeId × List Nat) :
    ArchetypeTable :=
  match table.column_index p.1 with
  | some col_idx =>
    { table with
        columns := listModify col_idx (fun c => c.push_raw p.2) table.columns }
  | none => table

/-- `World::spawn_with_data`: parallel slices of types, blobs and sizes;
`none` on length mismatch; blobs are pushed into the matching columns. -/
def World.spawn_with_data (w : World) (component_types : List ComponentTypeId)
    (component_data : List (List Nat)) (component_sizes : List Nat) :
    Option (Entity × World) :=
  if component_types.length ≠ component_data.length ∨
      component_types.length ≠ component_sizes.length then none
  else
    let type_set := btreeOfList component_types
    let (entity, a) := w.allocator.allocate
    let w := { w with allocator := a }
    let (archetype_id, w) := w.get_or_create_archetype type_set component_sizes
    let w := { w with
                archetypes := alModify archetype_id
                  (fun table =>
                    let table := { table with entities := table.entities ++ [entity] }
                    (component_types.zip component_data).foldl pushComponentData table)
                  w.archetypes }
    some (entity, { w with entity_archetype := alInsert entity archetype_id w.entity_archetype })

/-- The per-table body of `World::despawn`: locate the entity's row and
swap-remove it from the entity list and from every column. -/
def despawnTable (entity : Entity) (table : ArchetypeTable) : ArchetypeTable :=
  match listPos entity table.entities with
  | none => table
  | some pos =>
    { table with
        entities := swapRemove table.entities pos
        columns := table.columns.map fun c => c.swap_remove_row pos }

/-- `World::despawn`: remove the map entry; swap-remove the entity's row from
`entities` and from every column.  Returns `false` for unknown entities. -/
def World.despawn (w : World) (entity : Entity) : Bool × World :=
  match alGet entity w.entity_archetype with
  | none => (false, w)
  | some archetype_id =>
    let w := { w with entity_archetype := alRemove entity w.entity_archetype }
    let w := { w with
                archetypes := alModify archetype_id (despawnTable entity)
                  w.archetypes }
    (true, w)

/-- `World::entity_archetype` accessor (spec name `archetype_of`). -/
def World.archetype_of (w : World) (entity : Entity) : Option ArchetypeId :=
  alGet entity w.entity_archetype

/-- `World::archetype`. -/
def World.archetype (w : World) (id : ArchetypeId) : Option ArchetypeTable :=
  alGet id w.archetypes

/-- `World::entity_count`. -/
def World.entity_count (w : World) : Nat := w.entity_archetype.length

/-- `World::archetype_count`. -/
def World.archetype_count (w : World) : Nat := w.archetypes.length

/-- `World::matching_archetypes`: ids of archetypes whose type set contains
all required types. -/
def World.matching_archetypes (w : World) (required : List ComponentTypeId) :
    List ArchetypeId :=
  (w.archetypes.filter fun p => required.all fun ty => p.2.has_component ty).map
    fun p => p.2.id

/-! ### engine_net/messages.rs (the parts the claims need) -/

/-- `ComponentShard { component_type, entities, data }`. -/
structure ComponentShard where
  component_type : ComponentTypeId
  entities : List Entity
  data : List (List Nat)
deriving DecidableEq

/-- `SystemSchedule { tick_id, shard_range }`. -/
structure SystemSchedule where
  tick_id : Nat
  shard_range : Option (Nat × Nat)
deriving DecidableEq

/-- `SystemDescriptor { name, query, instance_id }`. -/
structure SystemDescriptor where
  name : String
  query : QueryDescriptor
  instance_id : String
deriving DecidableEq

/-! ### engine_app/scheduler.rs -/

/-- `RegisteredSystem { name, query }`. -/
structure RegisteredSystem where
  name : String
  query : QueryDescriptor
deriving DecidableEq

/-- `Stage { system_indices }`. -/
structure Stage where
  system_indices : List Nat
deriving DecidableEq

/-- `systems[existing_idx].query` (indices produced by `compute_stages` are
always in range, so the default is never consulted in reachable uses). -/
def sysQuery (systems : List RegisteredSystem) (i : Nat) : QueryDescriptor :=
  (systems.getD i ⟨"", QueryDescriptor.new⟩).query

/-- The inner placement loop of `compute_stages`: try each existing stage in
order, add the system to the first stage in which it conflicts with no
placed member, or append a fresh stage at the end. -/
def placeInStages (systems : List RegisteredSystem) (sys_idx : Nat) (q : QueryDescriptor) :
    List Stage → List Stage
  | [] => [⟨[sys_idx]⟩]
  | stage :: rest =>
    if stage.system_indices.any fun existing_idx =>
        q.conflicts_with (sysQuery systems existing_idx) then
      stage :: placeInStages systems sys_idx q rest
    else
      ⟨stage.system_indices ++ [sys_idx]⟩ :: rest

/-- `compute_stages`: greedy graph colouring over the input order. -/
def compute_stages (systems : List RegisteredSystem) : List Stage :=
  if systems.isEmpty then []
  else
    systems.enum.foldl (fun stages p => placeInStages systems p.1 p.2.query stages) []

/-! ### engine_app/registry.rs -/

/-- `SystemInfo { name, query, instances }`. -/
structure SystemInfo where
  name : String
  query : QueryDescriptor
  instances : List String
deriving DecidableEq

/-- `SystemRegistry { systems: HashMap<String, SystemInfo> }`. -/
structure SystemRegistry where
  systems : List (String × SystemInfo)
deriving DecidableEq

/-- `SystemRegistry::new`. -/
def SystemRegistry.new : SystemRegistry := ⟨[]⟩

/-- `SystemRegistry::register`: locate-or-create the `SystemInfo` for the
name (an existing entry keeps its query), then add the instance id if it is
not already present. -/
def SystemRegistry.register (r : SystemRegistry) (descriptor : SystemDescriptor) :
    SystemRegistry :=
  let entry :=
    match alGet descriptor.name r.systems with
    | some info => info
    | none => { name := descriptor.name, query := descriptor.query, instances := [] }
  let entry :=
    if entry.instances.contains descriptor.instance_id then entry
    else { entry with instances := entry.instances ++ [descriptor.instance_id] }
  ⟨alInsert descriptor.name entry r.systems⟩

/-- `SystemRegistry::unregister_instance`: remove the instance; drop the
whole system entry when its instance list becomes empty. -/
def SystemRegistry.unregister_instance (r : SystemRegistry)
    (system_name instance_id : String) : Bool × SystemRegistry :=
  match alGet system_name r.systems with
  | none => (false, r)
  | some info =>
    match listPos instance_id info.instances with
    | none => (false, r)
    | some pos =>
      let info := { info with instances := info.instances.eraseIdx pos }
      if info.instances.isEmpty then (true, ⟨alRemove system_name r.systems⟩)
      else (true, ⟨alInsert system_name info r.systems⟩)

/-- `SystemRegistry::get`. -/
def SystemRegistry.get (r : SystemRegistry) (name : String) : Option SystemInfo :=
  alGet name r.systems

/-- `SystemRegistry::system_count`. -/
def SystemRegistry.system_count (r : SystemRegistry) : Nat := r.systems.length

/-- `SystemRegistry::total_instances`. -/
def SystemRegistry.total_instances (r : SystemRegistry) : Nat :=
  (r.systems.map fun p => p.2.instances.length).sum

/-! ### engine_app/tick.rs -/

/-- `PendingSystemChange`. -/
inductive PendingSystemChange
  | Register (descriptor : SystemDescriptor)
  | Unregister (name : String) (instance_id : String)
deriving DecidableEq

/-- `TickLoop` state.  The timing configuration (`TickConfig`, f64 tick rate)
drives only real-time sleeping and is not part of the modelled state. -/
structure TickLoop where
  tick_id : Nat
  world : World
  registry : SystemRegistry
  stages : List Stage
  systems : List RegisteredSystem
  stages_dirty : Bool
  pending_changes : List PendingSystemChange
deriving DecidableEq

/-- `TickLoop::new`. -/
def TickLoop.new : TickLoop :=
  { tick_id := 0
    world := World.new
    registry := SystemRegistry.new
    stages := []
    systems := []
    stages_dirty := true
    pending_changes := [] }

/-- The `systems` vector built by `TickLoop::recompute_stages` from the
registry (`HashMap::values` order, modelled as insertion order). -/
def registrySystems (r : SystemRegistry) : List RegisteredSystem :=
  r.systems.map fun p => { name := p.2.name, query := p.2.query }

/-- `TickLoop::recompute_stages`. -/
def TickLoop.recompute_stages (t : TickLoop) : TickLoop :=
  let systems := registrySystems t.registry
  { t with systems := systems, stages := compute_stages systems, stages_dirty := false }

/-- `TickLoop::enqueue_change`. -/
def TickLoop.enqueue_change (t : TickLoop) (change : PendingSystemChange) : TickLoop :=
  { t with pending_changes := t.pending_changes ++ [change] }

/-- One step of `TickLoop::apply_pending_changes`: apply a queued change to
the registry and update the stages-dirty flag (an unregister of an unknown
instance only logs a warning). -/
def applyChange (acc : SystemRegistry × Bool) (change : PendingSystemChange) :
    SystemRegistry × Bool :=
  match change with
  | .Register descriptor => (acc.1.register descriptor, true)
  | .Unregister name instance_id =>
    let (removed, r) := acc.1.unregister_instance name instance_id
    (r, acc.2 || removed)

/-- `TickLoop::apply_pending_changes`: drain the FIFO queue into the
registry. -/
def TickLoop.apply_pending_changes (t : TickLoop) : TickLoop :=
  if t.pending_changes.isEmpty then t
  else
    let acc := t.pending_changes.foldl applyChange (t.registry, t.stages_dirty)
    { t with registry := acc.1, stages_dirty := acc.2, pending_changes := [] }

/-- `TickLoop::tick` (the local tick): advance the tick counter (wrapping
u64), drain pending changes, recompute stages if dirty. -/
def TickLoop.tick (t : TickLoop) : TickLoop :=
  let t := { t with tick_id := (t.tick_id + 1) % 2 ^ 64 }
  let t := t.apply_pending_changes
  if t.stages_dirty then t.recompute_stages else t

/-- `TickLoop::merge_shard` mutates only `self.world`. -/
def World.merge_pair (w : World) (shard : ComponentShard) (i : Nat) (entity : Entity) :
    World :=
  match w.archetype_of entity with
  | none => w
  | some arch_id =>
    { w with
        archetypes := alModify arch_id
          (fun table =>
            match table.column_index shard.component_type, table.entity_row entity,
                shard.data[i]? with
            | some col_idx, some row, some bytes =>
              { table with
                  columns := listModify col_idx (fun c => c.write_at row bytes)
                    table.columns }
            | _, _, _ => table)
          w.archetypes }

/-- `TickLoop::merge_shard` on the world: for each `(entity, blob)` pair,
resolve entity → archetype → column → row and overwrite the row's bytes;
any failed lookup skips the pair.  (Rust indexes `columns[col_idx]`
directly; under the well-formedness used in the theorems below the index is
always in range, so the model's skip-on-out-of-range is unreachable.) -/
def World.merge_shard (w : World) (shard : ComponentShard) : World :=
  shard.entities.enum.foldl (fun w p => w.merge_pair shard p.1 p.2) w

/-- `TickLoop::merge_shard`. -/
def TickLoop.merge_shard (t : TickLoop) (shard : ComponentShard) : TickLoop :=
  { t with world := t.world.merge_shard shard }

/-! ### Broker message handling (engine_system/runner.rs and the
changed-stream drain of tick.rs).

A payload is either a valid encoding of a schedule or of a shard, or bytes
that decode as neither; `engine_net::decode::<T>` succeeds exactly on valid
encodings of `T`.  Headers are distilled to the `msg-type` value. -/

inductive Payload
  | schedule (s : SystemSchedule)
  | shard (s : ComponentShard)
  | garbage (bytes : List Nat)
deriving DecidableEq

/-- `engine_net::decode::<SystemSchedule>`. -/
def decodeSchedule : Payload → Option SystemSchedule
  | .schedule s => some s
  | _ => none

/-- `engine_net::decode::<ComponentShard>`. -/
def decodeShard : Payload → Option ComponentShard
  | .shard s => some s
  | _ => none

/-- A broker message: optional `msg-type` header value plus payload. -/
structure BrokerMsg where
  msg_type : Option String
  payload : Payload
deriving DecidableEq

/-- Decode failures surfaced by `engine_net::decode`. -/
inductive NetError
  | Decode
deriving DecidableEq

/-- The worker's data-drain loop (runner.rs): accumulate shards until the
`data_done` sentinel; payloads that fail to decode are skipped. -/
def drainDataShards : List BrokerMsg → List ComponentShard
  | [] => []
  | msg :: rest =>
    if msg.msg_type = some "data_done" then []
    else
      match decodeShard msg.payload with
      | some shard => shard :: drainDataShards rest
      | none => drainDataShards rest

/-- One iteration of the worker's run loop (runner.rs): the schedule payload
is decoded with `?` — a failure propagates as an error and terminates the
loop; on success the data stream is drained into the tick's input shards. -/
def workerHandleSchedule (schedule_msg : BrokerMsg) (data_msgs : List BrokerMsg) :
    Except NetError (SystemSchedule × List ComponentShard) :=
  match decodeSchedule schedule_msg.payload with
  | none => .error .Decode
  | some schedule => .ok (schedule, drainDataShards data_msgs)

/-- One message of the coordinator's changed-stream drain (tick.rs): a
`changes_done` sentinel bumps the sentinel count; a payload that decodes as
a shard is merged; anything else is skipped. -/
def coordHandleChangedMsg (w : World) (sentinels_received : Nat) (msg : BrokerMsg) :
    World × Nat :=
  if msg.msg_type = some "changes_done" then (w, sentinels_received + 1)
  else
    match decodeShard msg.payload with
    | some shard => (w.merge_shard shard, sentinels_received)
    | none => (w, sentinels_received)

/-! ### The spec's conflict relation and first-fit staging, stated in the
spec's own words (used to compare against the source implementation). -/

/-- The conflict relation as the spec states it:
`writes(A) ∩ (reads(B) ∪ writes(B)) ≠ ∅` or symmetrically. -/
def ConflictSpec (a b : QueryDescriptor) : Prop :=
  (∃ t ∈ a.writes, t ∈ b.reads ∨ t ∈ b.writes) ∨
  (∃ t ∈ b.writes, t ∈ a.reads ∨ t ∈ a.writes)

instance (a b : QueryDescriptor) : Decidable (ConflictSpec a b) := by
  unfold ConflictSpec; infer_instance

/-- Index of the first stage passing the test (spec: "the first stage where
it conflicts with no currently placed member"). -/
def firstFitIdx (p : Stage → Bool) : List Stage → Option Nat
  | [] => none
  | st :: rest => if p st then some 0 else (firstFitIdx p rest).map (· + 1)

/-- First-fit staging as the spec describes it: process systems in input
order; put each into the first stage in which it conflicts with no placed
member, otherwise append a new singleton stage. -/
def firstFitStages (systems : List RegisteredSystem) : List Stage :=
  systems.enum.foldl
    (fun stages p =>
      match firstFitIdx
          (fun st => st.system_indices.all
            fun j => !(p.2.query.conflicts_with (sysQuery systems j)))
          stages with
      | some k => listModify k (fun st => ⟨st.system_indices ++ [p.1]⟩) stages
      | none => stages ++ [⟨[p.1]⟩])
    []

/-! ### Scheduler lemmas -/

theorem conflicts_with_iff (q o : QueryDescriptor) :
    q.conflicts_with o = true ↔ ConflictSpec q o := by
  simp [QueryDescriptor.conflicts_with, ConflictSpec, List.any_eq_true]

theorem conflicts_with_comm (q o : QueryDescriptor) :
    q.conflicts_with o = o.conflicts_with q := by
  simp only [QueryDescriptor.conflicts_with]
  exact Bool.or_comm _ _

/-- Pairwise non-conflict (by the implementation's `conflicts_with`) inside
one stage. -/
def stageOK (systems : List RegisteredSystem) (st : Stage) : Prop :=
  ∀ i ∈ st.system_indices, ∀ j ∈ st.system_indices, i ≠ j →
    (sysQuery systems i).conflicts_with (sysQuery systems j) = false

/-- The inner placement loop agrees with the spec's "first fitting stage"
search. -/
theorem placeInStages_eq_firstFit (systems : List RegisteredSystem) (sys_idx : Nat)
    (q : QueryDescriptor) (stages : List Stage) :
    placeInStages systems sys_idx q stages =
      match firstFitIdx
          (fun st => st.system_indices.all
            fun j => !(q.conflicts_with (sysQuery systems j)))
          stages with
      | some k => listModify k (fun st => ⟨st.system_indices ++ [sys_idx]⟩) stages
      | none => stages ++ [⟨[sys_idx]⟩] := by
  induction stages with
  | nil => rfl
  | cons st rest ih =>
    simp only [placeInStages, firstFitIdx]
    by_cases h : (st.system_indices.any fun existing_idx =>
        q.conflicts_with (sysQuery systems existing_idx)) = true
    · have hall : (st.system_indices.all
          fun j => !(q.conflicts_with (sysQuery systems j))) = false := by
        simp only [List.all_eq_not_any_not, Bool.not_not]
        simp [h]
      rw [if_pos h, ih]
      simp only [hall, Bool.false_eq_true, if_false]
      cases firstFitIdx (fun st => st.system_indices.all
          fun j => !(q.conflicts_with (sysQuery systems j))) rest with
      | none => simp
      | some k => simp [listModify]
    · have hall : (st.system_indices.all
          fun j => !(q.conflicts_with (sysQuery systems j))) = true := by
        simp only [List.all_eq_not_any_not, Bool.not_not]
        simp [h]
      rw [if_neg h]
      simp only [hall, if_true]
      simp [listModify]

/-- Placement preserves pairwise non-conflict when the placed query is the
query of the placed index. -/
theorem placeInStages_stageOK (systems : List RegisteredSystem) (sys_idx : Nat)
    (q : QueryDescriptor) (hq : q = sysQuery systems sys_idx) (stages : List Stage)
    (h : ∀ st ∈ stages, stageOK systems st) :
    ∀ st ∈ placeInStages systems sys_idx q stages, stageOK systems st := by
  induction stages with
  | nil =>
    intro st hst
    simp only [placeInStages, List.mem_singleton] at hst
    subst hst
    intro i hi j hj hij
    simp only [List.mem_singleton] at hi hj
    exact absurd (hi.trans hj.symm) hij
  | cons hd rest ih =>
    simp only [placeInStages]
    by_cases hc : (hd.system_indices.any fun existing_idx =>
        q.conflicts_with (sysQuery systems existing_idx)) = true
    · rw [if_pos hc]
      intro st hst
      rcases List.mem_cons.mp hst with rfl | hst
      · exact h st (List.mem_cons_self _ _)
      · exact ih (fun s hs => h s (List.mem_cons_of_mem _ hs)) st hst
    · rw [if_neg hc]
      intro st hst
      rcases List.mem_cons.mp hst with rfl | hst
      · -- the new member conflicts with no previous member of `hd`
        have hnc : ∀ j ∈ hd.system_indices,
            (sysQuery systems sys_idx).conflicts_with (sysQuery systems j) = false := by
          intro j hj
          rw [← hq]
          cases hb : q.conflicts_with (sysQuery systems j) with
          | false => rfl
          | true => exact absurd (List.any_eq_true.mpr ⟨j, hj, hb⟩) hc
        have hok : stageOK systems hd := h hd (List.mem_cons_self _ _)
        intro i hi j hj hij
        simp only [List.mem_append, List.mem_singleton] at hi hj
        rcases hi with hi | rfl
        · rcases hj with hj | rfl
          · exact hok i hi j hj hij
          · rw [conflicts_with_comm]
            exact hnc i hi
        · rcases hj with hj | rfl
          · exact hnc j hj
          · exact absurd rfl hij
      · exact h st (List.mem_cons_of_mem _ hst)

/-- Placement appends the new index at the end of a stage, preserving the
strictly-increasing order of stage members. -/
theorem placeInStages_order (systems : List RegisteredSystem) (sys_idx : Nat)
    (q : QueryDescriptor) (stages : List Stage)
    (h : ∀ st ∈ stages, st.system_indices.Chain' (· < ·) ∧
      ∀ j ∈ st.system_indices, j < sys_idx) :
    ∀ st ∈ placeInStages systems sys_idx q stages,
      st.system_indices.Chain' (· < ·) ∧ ∀ j ∈ st.system_indices, j < sys_idx + 1 := by
  induction stages with
  | nil =>
    intro st hst
    simp only [placeInStages, List.mem_singleton] at hst
    subst hst
    refine ⟨by simp, ?_⟩
    intro j hj; simp only [List.mem_singleton] at hj; omega
  | cons hd tl ih =>
    intro st hst
    simp only [placeInStages] at hst
    by_cases hc : (hd.system_indices.any fun existing_idx =>
        q.conflicts_with (sysQuery systems existing_idx)) = true
    · rw [if_pos hc] at hst
      rcases List.mem_cons.mp hst with rfl | hst
      · have := h st (List.mem_cons_self _ _)
        exact ⟨this.1, fun j hj => Nat.lt_succ_of_lt (this.2 j hj)⟩
      · exact ih (fun x hx => h x (List.mem_cons_of_mem _ hx)) st hst
    · rw [if_neg hc] at hst
      rcases List.mem_cons.mp hst with rfl | hst
      · have hhd := h hd (List.mem_cons_self _ _)
        constructor
        · rw [List.chain'_append]
          refine ⟨hhd.1, List.chain'_singleton _, ?_⟩
          intro x hx y hy
          simp only [List.head?_cons, Option.mem_def, Option.some.injEq] at hy
          subst hy
          exact hhd.2 x (List.mem_of_mem_getLast? hx)
        · intro j hj
          rcases List.mem_append.mp hj with hj | hj
          · exact Nat.lt_succ_of_lt (hhd.2 j hj)
          · simp only [List.mem_singleton] at hj; omega
      · have := h st (List.mem_cons_of_mem _ hst)
        exact ⟨this.1, fun j hj => Nat.lt_succ_of_lt (this.2 j hj)⟩

/-- The fold underlying `compute_stages`, with the invariant carried through
a suffix of the enumerated system list. -/
theorem foldl_place_invariant (systems : List RegisteredSystem) :
    ∀ (l : List RegisteredSystem) (n : Nat) (stages : List Stage),
      systems.drop n = l →
      (∀ st ∈ stages, stageOK systems st ∧ st.system_indices.Chain' (· < ·) ∧
        ∀ j ∈ st.system_indices, j < n) →
      ∀ st ∈ (l.enumFrom n).foldl
          (fun stages p => placeInStages systems p.1 p.2.query stages) stages,
        stageOK systems st ∧ st.system_indices.Chain' (· < ·) := by
  intro l
  induction l with
  | nil =>
    intro n stages _ h st hst
    simp only [List.enumFrom, List.foldl_nil] at hst
    exact ⟨(h st hst).1, (h st hst).2.1⟩
  | cons sys rest ih =>
    intro n stages hdrop h st hst
    have hget : systems[n]? = some sys := by
      have h0 : (systems.drop n).head? = some sys := by rw [hdrop]; rfl
      rwa [List.head?_drop] at h0
    have hsys : sysQuery systems n = sys.query := by
      simp [sysQuery, List.getD_eq_getElem?_getD, hget]
    have hdrop1 : systems.drop (n + 1) = rest := by
      have := congrArg List.tail hdrop
      simpa [List.tail_drop] using this
    simp only [List.enumFrom, List.foldl_cons] at hst
    exact ih (n + 1) (placeInStages systems n sys.query stages) hdrop1
      (fun s hs => ⟨placeInStages_stageOK systems n sys.query hsys.symm stages
          (fun x hx => (h x hx).1) s hs,
        placeInStages_order systems n sys.query stages
          (fun x hx => ⟨(h x hx).2.1, (h x hx).2.2⟩) s hs⟩)
      st hst

/-- Every stage produced by `compute_stages` is pairwise non-conflicting and
lists its members in input order. -/
theorem compute_stages_invariant (systems : List RegisteredSystem) :
    ∀ st ∈ compute_stages systems,
      stageOK systems st ∧ st.system_indices.Chain' (· < ·) := by
  intro st hst
  unfold compute_stages at hst
  by_cases he : systems.isEmpty
  · rw [if_pos he] at hst
    exact absurd hst (List.not_mem_nil st)
  · rw [if_neg he] at hst
    exact foldl_place_invariant systems systems 0 [] rfl
      (by intro s hs; exact absurd hs (List.not_mem_nil s)) st hst

/-- The fold of `compute_stages` agrees, step by step, with the spec's
first-fit placement. -/
theorem foldl_place_eq_firstFit (systems : List RegisteredSystem) :
    ∀ (l : List (Nat × RegisteredSystem)) (stages : List Stage),
      l.foldl (fun stages p => placeInStages systems p.1 p.2.query stages) stages =
      l.foldl
        (fun stages p =>
          match firstFitIdx
              (fun st => st.system_indices.all
                fun j => !(p.2.query.conflicts_with (sysQuery systems j)))
              stages with
          | some k => listModify k (fun st => ⟨st.system_indices ++ [p.1]⟩) stages
          | none => stages ++ [⟨[p.1]⟩])
        stages := by
  intro l
  induction l with
  | nil => intro stages; rfl
  | cons p rest ih =>
    intro stages
    simp only [List.foldl_cons]
    rw [placeInStages_eq_firstFit]
    exact ih _

/-- The three-system example of the spec (physics, ai, movement). -/
def exampleSystems : List RegisteredSystem :=
  [⟨"physics", (QueryDescriptor.new.read 1).write 2⟩,
   ⟨"ai", (QueryDescriptor.new.read 1).write 3⟩,
   ⟨"movement", (QueryDescriptor.new.read 2).write 1⟩]

/-- **C1** — Conflict soundness: in every stage produced by
`compute_stages`, any two distinct systems placed in the same stage do not
conflict, where systems conflict exactly when one's writes intersect the
other's reads ∪ writes (in either direction). -/
theorem compute_stages_conflict_soundness (systems : List RegisteredSystem)
    (st : Stage) (hst : st ∈ compute_stages systems)
    (i : Nat) (hi : i ∈ st.system_indices) (j : Nat) (hj : j ∈ st.system_indices)
    (hij : i ≠ j) :
    ¬ ConflictSpec (sysQuery systems i) (sysQuery systems j) := by
  intro hcs
  have hok := (compute_stages_invariant systems st hst).1 i hi j hj hij
  rw [← conflicts_with_iff] at hcs
  rw [hok] at hcs
  exact Bool.false_ne_true hcs

/-- Witness for C1 at the spec's three-system example: physics and ai share
stage 0 and do not conflict. -/
theorem compute_stages_conflict_soundness_witness :
    ¬ ConflictSpec (sysQuery exampleSystems 0) (sysQuery exampleSystems 1) :=
  compute_stages_conflict_soundness exampleSystems ⟨[0, 1]⟩ (by decide)
    0 (by decide) 1 (by decide) (by decide)

/-- **C5** — `compute_stages` implements deterministic greedy first-fit
colouring: it equals the spec's first-fit function (place each system, in
input order, into the first stage where it conflicts with no placed member,
else append a new stage), every stage lists its systems in input order, and
the physics/ai/movement example yields exactly `[{0, 1}, {2}]`. -/
theorem compute_stages_is_first_fit :
    (∀ systems : List RegisteredSystem, compute_stages systems = firstFitStages systems) ∧
    (∀ systems : List RegisteredSystem, ∀ st ∈ compute_stages systems,
      st.system_indices.Chain' (· < ·)) ∧
    (compute_stages exampleSystems).map Stage.system_indices = [[0, 1], [2]] := by
  refine ⟨?_, ?_, by decide⟩
  · intro systems
    unfold compute_stages firstFitStages
    by_cases he : systems.isEmpty
    · rw [if_pos he]
      have : systems = [] := List.isEmpty_iff.mp he
      subst this
      rfl
    · rw [if_neg he]
      exact foldl_place_eq_firstFit systems systems.enum []
  · intro systems st hst
    exact (compute_stages_invariant systems st hst).2

/-! ### Association-list lemmas -/

theorem alGet_alInsert_self {κ ν : Type} [DecidableEq κ] (k : κ) (v : ν)
    (l : List (κ × ν)) : alGet k (alInsert k v l) = some v := by
  induction l with
  | nil => simp [alInsert, alGet]
  | cons e t ih =>
    by_cases h : e.1 = k
    · simp [alInsert, alGet, h]
    · simp [alInsert, alGet, h, ih]

theorem alGet_alInsert_ne {κ ν : Type} [DecidableEq κ] (k k' : κ) (v : ν)
    (l : List (κ × ν)) (h : k' ≠ k) : alGet k' (alInsert k v l) = alGet k' l := by
  induction l with
  | nil =>
    simp only [alInsert, alGet]
    rw [if_neg (Ne.symm h)]
  | cons e t ih =>
    simp only [alInsert]
    by_cases he : e.1 = k
    · rw [if_pos he]
      simp only [alGet]
      rw [if_neg (Ne.symm h), if_neg (he ▸ Ne.symm h)]
    · rw [if_neg he]
      simp only [alGet]
      by_cases he2 : e.1 = k'
      · rw [if_pos he2, if_pos he2]
      · rw [if_neg he2, if_neg he2]
        exact ih

theorem alInsert_of_alGet_eq {κ ν : Type} [DecidableEq κ] (k : κ) (v : ν)
    (l : List (κ × ν)) (h : alGet k l = some v) : alInsert k v l = l := by
  induction l with
  | nil => simp [alGet] at h
  | cons e t ih =>
    by_cases he : e.1 = k
    · simp only [alGet, if_pos he, Option.some.injEq] at h
      simp only [alInsert, if_pos he]
      rw [← he, ← h]
    · simp only [alGet, if_neg he] at h
      simp [alInsert, he, ih h]

theorem alGet_alModify_self {κ ν : Type} [DecidableEq κ] (k : κ) (f : ν → ν)
    (l : List (κ × ν)) : alGet k (alModify k f l) = (alGet k l).map f := by
  induction l with
  | nil => simp [alModify, alGet]
  | cons e t ih =>
    by_cases h : e.1 = k
    · simp [alModify, alGet, h]
    · simp [alModify, alGet, h, ih]

theorem alGet_alModify_ne {κ ν : Type} [DecidableEq κ] (k k' : κ) (f : ν → ν)
    (l : List (κ × ν)) (h : k' ≠ k) : alGet k' (alModify k f l) = alGet k' l := by
  induction l with
  | nil => rfl
  | cons e t ih =>
    simp only [alModify]
    by_cases he : e.1 = k
    · rw [if_pos he]
      simp only [alGet]
      rw [if_neg (he ▸ Ne.symm h), if_neg (he ▸ Ne.symm h)]
    · rw [if_neg he]
      simp only [alGet]
      by_cases he2 : e.1 = k'
      · rw [if_pos he2, if_pos he2]
      · rw [if_neg he2, if_neg he2]
        exact ih

theorem alGet_mem {κ ν : Type} [DecidableEq κ] (k : κ) (v : ν)
    (l : List (κ × ν)) (h : alGet k l = some v) : (k, v) ∈ l := by
  induction l with
  | nil => simp [alGet] at h
  | cons e t ih =>
    by_cases he : e.1 = k
    · simp only [alGet, if_pos he, Option.some.injEq] at h
      subst h
      subst he
      exact List.mem_cons_self _ _
    · simp only [alGet, if_neg he] at h
      exact List.mem_cons_of_mem _ (ih h)

theorem alModify_congr_id {κ ν : Type} [DecidableEq κ] (k : κ) (f : ν → ν)
    (l : List (κ × ν)) (h : ∀ v, alGet k l = some v → f v = v) :
    alModify k f l = l := by
  induction l with
  | nil => rfl
  | cons e t ih =>
    by_cases he : e.1 = k
    · have hf := h e.2 (by simp [alGet, he])
      simp only [alModify, if_pos he, hf]
    · simp only [alGet, if_neg he] at h
      simp [alModify, he, ih h]

theorem alModify_map_fst {κ ν : Type} [DecidableEq κ] (k : κ) (f : ν → ν)
    (l : List (κ × ν)) : (alModify k f l).map Prod.fst = l.map Prod.fst := by
  induction l with
  | nil => rfl
  | cons e t ih =>
    by_cases he : e.1 = k
    · simp [alModify, he]
    · simp [alModify, he, ih]

/-! ### C7 — registry registration semantics -/

/-- After one registration, the query stored under the descriptor's name is
the previously stored query if the name already existed, else the
descriptor's query. -/
theorem register_get_query (r : SystemRegistry) (d : SystemDescriptor) :
    ((r.register d).get d.name).map SystemInfo.query =
      some (match r.get d.name with
            | some info => info.query
            | none => d.query) := by
  simp only [SystemRegistry.register, SystemRegistry.get]
  rw [alGet_alInsert_self]
  cases h : alGet d.name r.systems with
  | some info => simp only [h]; split <;> rfl
  | none => simp only [h]; split <;> rfl

theorem register_get_ne (r : SystemRegistry) (d : SystemDescriptor) (name : String)
    (h : name ≠ d.name) : (r.register d).get name = r.get name := by
  simp only [SystemRegistry.register, SystemRegistry.get]
  exact alGet_alInsert_ne _ _ _ _ h

/-- First registration wins for the query, starting from any registry. -/
theorem foldl_register_query (ds : List SystemDescriptor) :
    ∀ (r : SystemRegistry) (name : String),
      ((ds.foldl SystemRegistry.register r).get name).map SystemInfo.query =
        match r.get name with
        | some info => some info.query
        | none => (ds.find? fun d => d.name == name).map SystemDescriptor.query := by
  induction ds with
  | nil =>
    intro r name
    cases h : r.get name <;> simp [h]
  | cons d ds ih =>
    intro r name
    simp only [List.foldl_cons]
    rw [ih]
    by_cases hn : d.name = name
    · subst hn
      have hfind : (List.find? (fun x => x.name == d.name) (d :: ds)) = some d := by
        simp [List.find?]
      rw [hfind]
      cases h : (r.register d).get d.name with
      | none =>
        have := register_get_query r d
        rw [h] at this
        simp at this
      | some info =>
        have := register_get_query r d
        rw [h] at this
        simp only [Option.map_some'] at this ⊢
        rw [this]
        cases hr : r.get d.name <;> simp [hr]
    · rw [register_get_ne r d name (fun he => hn he.symm)]
      have hfind : (List.find? (fun x => x.name == name) (d :: ds)) =
          List.find? (fun x => x.name == name) ds := by
        have hb : (d.name == name) = false := by simp [hn]
        simp [List.find?, hb]
      rw [hfind]

/-- **C7** — Registering an already-present `(name, instance_id)` pair leaves
the registry unchanged, and after any sequence of registrations the stored
query for a name is the query of the first registration under that name,
even when later registrations carry different queries. -/
theorem register_idempotent_and_first_query_wins :
    (∀ (r : SystemRegistry) (d : SystemDescriptor) (info : SystemInfo),
      r.get d.name = some info → d.instance_id ∈ info.instances →
      r.register d = r) ∧
    (∀ (ds : List SystemDescriptor) (name : String),
      ((ds.foldl SystemRegistry.register SystemRegistry.new).get name).map
          SystemInfo.query =
        (ds.find? fun d => d.name == name).map SystemDescriptor.query) := by
  constructor
  · intro r d info hget hmem
    simp only [SystemRegistry.register]
    simp only [SystemRegistry.get] at hget
    rw [hget]
    have hc : info.instances.contains d.instance_id = true := by
      simpa [List.contains] using hmem
    rw [if_pos hc]
    have := alInsert_of_alGet_eq d.name info r.systems hget
    cases r
    simpa using this
  · intro ds name
    rw [foldl_register_query]
    simp [SystemRegistry.get, SystemRegistry.new, alGet]

/-- The duplicate-registration example descriptor. -/
def exDescriptor1 : SystemDescriptor :=
  ⟨"physics", (QueryDescriptor.new.read 1).write 2, "inst-1"⟩

/-- A later registration under the same name with a different query. -/
def exDescriptor2 : SystemDescriptor :=
  ⟨"physics", QueryDescriptor.new.read 9, "inst-2"⟩

/-- Witness for C7: a duplicate registration of `inst-1` under `physics` is a
no-op, and the query stored after registering two different queries under
the same name is the first one. -/
theorem register_idempotent_and_first_query_wins_witness :
    (SystemRegistry.new.register exDescriptor1).register exDescriptor1 =
        SystemRegistry.new.register exDescriptor1 ∧
    (([exDescriptor1, exDescriptor2].foldl SystemRegistry.register
        SystemRegistry.new).get "physics").map SystemInfo.query =
      some exDescriptor1.query := by
  constructor
  · exact register_idempotent_and_first_query_wins.1 _ _
      ⟨"physics", (QueryDescriptor.new.read 1).write 2, ["inst-1"]⟩ (by decide) (by decide)
  · rw [register_idempotent_and_first_query_wins.2 [exDescriptor1, exDescriptor2] "physics"]
    decide

/-! ### Lemmas on the list primitives used by the world model -/

theorem listModify_getElem_self {α : Type} (i : Nat) (f : α → α) (l : List α) :
    (listModify i f l)[i]? = (l[i]?).map f := by
  induction l generalizing i with
  | nil => simp [listModify]
  | cons x t ih =>
    cases i with
    | zero => simp [listModify]
    | succ j => simpa [listModify] using ih j

theorem listModify_getElem_ne {α : Type} (i j : Nat) (f : α → α) (l : List α)
    (h : j ≠ i) : (listModify i f l)[j]? = l[j]? := by
  induction l generalizing i j with
  | nil => simp [listModify]
  | cons x t ih =>
    cases i with
    | zero =>
      cases j with
      | zero => exact absurd rfl h
      | succ j2 => simp [listModify]
    | succ i2 =>
      cases j with
      | zero => simp [listModify]
      | succ j2 => simpa [listModify] using ih i2 j2 (fun he => h (by omega))

theorem listModify_map {α β : Type} (i : Nat) (f : α → α) (g : α → β) (l : List α)
    (h : ∀ x, g (f x) = g x) : (listModify i f l).map g = l.map g := by
  induction l generalizing i with
  | nil => simp [listModify]
  | cons x t ih =>
    cases i with
    | zero => simp [listModify, h]
    | succ j => simp [listModify, ih j]

theorem listModify_congr_id {α : Type} (i : Nat) (f : α → α) (l : List α)
    (h : ∀ x, l[i]? = some x → f x = x) : listModify i f l = l := by
  induction l generalizing i with
  | nil => simp [listModify]
  | cons x t ih =>
    cases i with
    | zero => simp [listModify, h x (by simp)]
    | succ j =>
      simp only [listModify, List.cons.injEq, true_and]
      exact ih j (fun y hy => h y (by simpa using hy))

theorem writeRange_length (l : List Nat) (start : Nat) (repl : List Nat)
    (h : start + repl.length ≤ l.length) :
    (writeRange l start repl).length = l.length := by
  simp only [writeRange, List.length_append, List.length_take, List.length_drop]
  omega

theorem writeRange_getElem (l : List Nat) (start : Nat) (repl : List Nat)
    (h : start + repl.length ≤ l.length) (bi : Nat) :
    (writeRange l start repl)[bi]? =
      if start ≤ bi ∧ bi < start + repl.length then repl[bi - start]?
      else l[bi]? := by
  have htake : (l.take start).length = start := by
    simp only [List.length_take]; omega
  simp only [writeRange]
  by_cases h1 : bi < start
  · rw [if_neg (by omega)]
    rw [List.getElem?_append_left (by rw [List.length_append, htake]; omega),
        List.getElem?_append_left (by rw [htake]; omega),
        List.getElem?_take_of_lt h1]
  · by_cases h2 : bi < start + repl.length
    · rw [if_pos ⟨by omega, h2⟩]
      rw [List.getElem?_append_left (by rw [List.length_append, htake]; omega),
          List.getElem?_append_right (by rw [htake]; omega), htake]
    · rw [if_neg (by omega)]
      rw [List.getElem?_append_right (by rw [List.length_append, htake]; omega),
          List.getElem?_drop]
      congr 1
      rw [List.length_append, htake]
      omega

theorem listPos_getElem {α : Type} [DecidableEq α] (x : α) (l : List α) :
    ∀ i, listPos x l = some i → l[i]? = some x := by
  induction l with
  | nil => intro i h; simp [listPos] at h
  | cons y t ih =>
    intro i h
    simp only [listPos] at h
    by_cases he : y = x
    · rw [if_pos he] at h
      cases h
      simpa using he
    · rw [if_neg he] at h
      cases hp : listPos x t with
      | none => rw [hp] at h; simp at h
      | some j =>
        rw [hp] at h
        simp only [Option.map_some'] at h
        cases h
        simpa using ih j hp

theorem listPos_inj {α : Type} [DecidableEq α] (x y : α) (l : List α) (i j : Nat)
    (hx : listPos x l = some i) (hy : listPos y l = some j) (hne : x ≠ y) :
    i ≠ j := by
  intro he
  subst he
  have h1 := listPos_getElem x l i hx
  have h2 := listPos_getElem y l i hy
  rw [h1] at h2
  exact hne (Option.some.inj h2)

/-! ### Merge-shard machinery: shapes, byte reads, and write overlays -/

/-- Everything about a column except its byte contents. -/
def Column.shape (c : Column) : Nat × Nat × Nat :=
  (c.type_id, c.item_size, c.data.length)

/-- Everything about a table except its columns' byte contents. -/
def ArchetypeTable.shape (t : ArchetypeTable) :
    Nat × List Nat × List Nat × List (Nat × Nat × Nat) :=
  (t.id, t.component_types, t.entities, t.columns.map Column.shape)

/-- Everything about a world except its columns' byte contents. -/
def World.shape (w : World) :
    Nat × List (Nat × Nat) × List (List Nat × Nat) ×
      List (Nat × (Nat × List Nat × List Nat × List (Nat × Nat × Nat))) :=
  (w.allocator.next_id, w.entity_archetype, w.type_set_to_archetype,
   w.archetypes.map fun p => (p.1, p.2.shape))

/-- Read one byte of one column of one archetype. -/
def World.readByte (w : World) (aid ci bi : Nat) : Option Nat :=
  (alGet aid w.archetypes).bind fun t => (t.columns[ci]?).bind fun c => c.data[bi]?

/-- The (partial) byte overlay written by the merge step for pair `(i, e)`:
`some v` exactly when the step writes value `v` at address `(aid, ci, bi)`.
It depends on the world only through its shape. -/
def overlayPair (w : World) (shard : ComponentShard) (i : Nat) (e : Entity)
    (aid ci bi : Nat) : Option Nat :=
  match alGet e w.entity_archetype with
  | none => none
  | some aid2 =>
    if aid2 = aid then
      match alGet aid w.archetypes with
      | none => none
      | some t =>
        match t.column_index shard.component_type, t.entity_row e, shard.data[i]? with
        | some ci2, some row, some bytes =>
          if ci2 = ci then
            match t.columns[ci]? with
            | none => none
            | some c =>
              if row * c.item_size + c.item_size > c.data.length then none
              else if row * c.item_size ≤ bi ∧
                  bi < row * c.item_size + (min c.item_size bytes.length) then
                (bytes.take (min c.item_size bytes.length))[bi - row * c.item_size]?
              else none
          else none
        | _, _, _ => none
    else none

/-- The byte overlay of a list of pairs; later pairs override earlier ones. -/
def overlayPairs (w : World) (shard : ComponentShard) (ps : List (Nat × Entity))
    (aid ci bi : Nat) : Option Nat :=
  ps.foldr
    (fun p acc =>
      match acc with
      | some v => some v
      | none => overlayPair w shard p.1 p.2 aid ci bi)
    none

/-- Processing a list of pairs (the fold inside `merge_shard`). -/
def mergePairs (w : World) (shard : ComponentShard) (ps : List (Nat × Entity)) : World :=
  ps.foldl (fun w p => w.merge_pair shard p.1 p.2) w

theorem merge_shard_eq_mergePairs (w : World) (shard : ComponentShard) :
    w.merge_shard shard = mergePairs w shard shard.entities.enum := rfl

theorem write_at_shape (c : Column) (row : Nat) (bytes : List Nat) :
    (c.write_at row bytes).shape = c.shape := by
  simp only [Column.write_at]
  by_cases h : row * c.item_size + c.item_size > c.data.length
  · rw [if_pos h]
  · rw [if_neg h]
    simp only [Column.shape]
    rw [writeRange_length]
    have : (bytes.take (min c.item_size bytes.length)).length ≤ c.item_size := by
      simp only [List.length_take]
      omega
    omega

/-- A single merge step does not change the world's shape. -/
theorem merge_pair_shape (w : World) (shard : ComponentShard) (i : Nat) (e : Entity) :
    (w.merge_pair shard i e).shape = w.shape := by
  simp only [World.merge_pair]
  cases ha : w.archetype_of e with
  | none => rfl
  | some aid =>
    simp only [World.shape, Prod.mk.injEq, true_and]
    have : ∀ t : ArchetypeTable,
        (match t.column_index shard.component_type, t.entity_row e, shard.data[i]? with
          | some col_idx, some row, some bytes =>
            { t with columns := listModify col_idx (fun c => c.write_at row bytes) t.columns }
          | _, _, _ => t).shape = t.shape := by
      intro t
      cases hci : t.column_index shard.component_type with
      | none => rfl
      | some ci =>
        cases hrow : t.entity_row e with
        | none => rfl
        | some row =>
          cases hb : shard.data[i]? with
          | none => rfl
          | some bytes =>
            simp only [ArchetypeTable.shape, Prod.mk.injEq, true_and]
            exact listModify_map ci _ Column.shape t.columns
              (fun c => write_at_shape c row bytes)
    induction w.archetypes with
    | nil => rfl
    | cons p tl ih =>
      simp only [alModify, List.map_cons]
      by_cases hk : p.1 = aid
      · rw [if_pos hk]
        simp only [List.map_cons, List.cons.injEq]
        exact ⟨by rw [this p.2], trivial⟩
      · rw [if_neg hk]
        simp only [List.map_cons, List.cons.injEq]
        exact ⟨trivial, ih⟩

/-- Single-step read characterization: after one merge step, a byte read
returns the step's overlay value where the step wrote, and the old value
elsewhere. -/
theorem merge_pair_readByte (w : World) (shard : ComponentShard) (i : Nat) (e : Entity)
    (aid ci bi : Nat) :
    (w.merge_pair shard i e).readByte aid ci bi =
      match overlayPair w shard i e aid ci bi with
      | some v => some v
      | none => w.readByte aid ci bi := by
  simp only [World.merge_pair, overlayPair, World.archetype_of]
  cases ha : alGet e w.entity_archetype with
  | none => rfl
  | some aid2 =>
    dsimp only
    by_cases haid : aid2 = aid
    · subst haid
      rw [if_pos rfl]
      simp only [World.readByte]
      rw [alGet_alModify_self]
      cases hat : alGet aid2 w.archetypes with
      | none => rfl
      | some t =>
        simp only [Option.map_some', Option.some_bind]
        cases hci : t.column_index shard.component_type with
        | none => rfl
        | some ci2 =>
          cases hrow : t.entity_row e with
          | none => rfl
          | some row =>
            cases hb : shard.data[i]? with
            | none => rfl
            | some bytes =>
              dsimp only
              by_cases hcc : ci2 = ci
              · subst hcc
                rw [if_pos rfl]
                show ((listModify ci2 (fun c => c.write_at row bytes) t.columns)[ci2]?).bind
                    (fun c => c.data[bi]?) = _
                rw [listModify_getElem_self]
                cases hcol : t.columns[ci2]? with
                | none => rfl
                | some c =>
                  simp only [Option.map_some', Option.some_bind]
                  simp only [Column.write_at]
                  by_cases hgt : row * c.item_size + c.item_size > c.data.length
                  · rw [if_pos hgt, if_pos hgt]
                  · rw [if_neg hgt, if_neg hgt]
                    have hm : min c.item_size bytes.length ≤ bytes.length :=
                      Nat.min_le_right _ _
                    have hlen : (bytes.take (min c.item_size bytes.length)).length =
                        min c.item_size bytes.length := by
                      rw [List.length_take]
                      exact Nat.min_eq_left hm
                    have hbound : row * c.item_size +
                        (bytes.take (min c.item_size bytes.length)).length ≤
                        c.data.length := by
                      rw [hlen]
                      have := Nat.min_le_left c.item_size bytes.length
                      omega
                    rw [writeRange_getElem _ _ _ hbound bi]
                    by_cases hin : row * c.item_size ≤ bi ∧
                        bi < row * c.item_size + min c.item_size bytes.length
                    · rw [if_pos (by rw [hlen]; exact hin), if_pos hin]
                      have hidx : bi - row * c.item_size <
                          (bytes.take (min c.item_size bytes.length)).length := by
                        rw [hlen]; omega
                      rw [List.getElem?_eq_getElem hidx]
                    · rw [if_neg (by rw [hlen]; exact hin), if_neg hin]
              · rw [if_neg hcc]
                show ((listModify ci2 (fun c => c.write_at row bytes) t.columns)[ci]?).bind
                    (fun c => c.data[bi]?) = _
                rw [listModify_getElem_ne _ _ _ _ (fun hx => hcc hx.symm)]
    · rw [if_neg haid]
      simp only [World.readByte]
      rw [alGet_alModify_ne _ _ _ _ (fun hx => haid hx.symm)]

theorem alGet_map {κ ν μ : Type} [DecidableEq κ] (k : κ) (g : ν → μ)
    (l : List (κ × ν)) :
    alGet k (l.map fun p => (p.1, g p.2)) = (alGet k l).map g := by
  induction l with
  | nil => rfl
  | cons e t ih =>
    by_cases he : e.1 = k
    · simp [alGet, he]
    · simp [alGet, he, ih]

/-- The overlay of a pair depends on the world only through its shape. -/
theorem overlayPair_congr (w u : World) (shard : ComponentShard)
    (h : w.shape = u.shape) (i : Nat) (e : Entity) (aid ci bi : Nat) :
    overlayPair w shard i e aid ci bi = overlayPair u shard i e aid ci bi := by
  have hmap : w.entity_archetype = u.entity_archetype :=
    congrArg (fun s => s.2.1) h
  have harch : (w.archetypes.map fun p => (p.1, p.2.shape)) =
      (u.archetypes.map fun p => (p.1, p.2.shape)) :=
    congrArg (fun s => s.2.2.2) h
  have hga : (alGet aid w.archetypes).map ArchetypeTable.shape =
      (alGet aid u.archetypes).map ArchetypeTable.shape := by
    rw [← alGet_map, ← alGet_map, harch]
  simp only [overlayPair, hmap]
  cases ha : alGet e u.entity_archetype with
  | none => rfl
  | some aid2 =>
    dsimp only
    by_cases haid : aid2 = aid
    · rw [if_pos haid, if_pos haid]
      cases hw : alGet aid w.archetypes with
      | none =>
        rw [hw] at hga
        cases hu : alGet aid u.archetypes with
        | none => rfl
        | some t2 => rw [hu] at hga; simp at hga
      | some t =>
        rw [hw] at hga
        cases hu : alGet aid u.archetypes with
        | none => rw [hu] at hga; simp at hga
        | some t2 =>
          rw [hu] at hga
          simp only [Option.map_some', Option.some.injEq] at hga
          have hct : t.component_types = t2.component_types :=
            congrArg (fun s => s.2.1) hga
          have hent : t.entities = t2.entities :=
            congrArg (fun s => s.2.2.1) hga
          have hcols : t.columns.map Column.shape = t2.columns.map Column.shape :=
            congrArg (fun s => s.2.2.2) hga
          dsimp only
          rw [show t.column_index shard.component_type =
              t2.column_index shard.component_type by
            simp only [ArchetypeTable.column_index, hct]]
          rw [show t.entity_row e = t2.entity_row e by
            simp only [ArchetypeTable.entity_row, hent]]
          cases hci : t2.column_index shard.component_type with
          | none => rfl
          | some ci2 =>
            cases hrow : t2.entity_row e with
            | none => rfl
            | some row =>
              cases hb : shard.data[i]? with
              | none => rfl
              | some bytes =>
                dsimp only
                by_cases hcc : ci2 = ci
                · rw [if_pos hcc, if_pos hcc]
                  have hcg : (t.columns[ci]?).map Column.shape =
                      (t2.columns[ci]?).map Column.shape := by
                    rw [← List.getElem?_map, ← List.getElem?_map, hcols]
                  cases hc1 : t.columns[ci]? with
                  | none =>
                    rw [hc1] at hcg
                    cases hc2 : t2.columns[ci]? with
                    | none => rfl
                    | some c2 => rw [hc2] at hcg; simp at hcg
                  | some c =>
                    rw [hc1] at hcg
                    cases hc2 : t2.columns[ci]? with
                    | none => rw [hc2] at hcg; simp at hcg
                    | some c2 =>
                      rw [hc2] at hcg
                      simp only [Option.map_some', Option.some.injEq] at hcg
                      have hisz : c.item_size = c2.item_size :=
                        congrArg (fun s => s.2.1) hcg
                      have hdl : c.data.length = c2.data.length :=
                        congrArg (fun s => s.2.2) hcg
                      dsimp only
                      rw [hisz, hdl]
                · rw [if_neg hcc, if_neg hcc]
    · rw [if_neg haid, if_neg haid]

theorem overlayPairs_congr (w u : World) (shard : ComponentShard)
    (h : w.shape = u.shape) (ps : List (Nat × Entity)) (aid ci bi : Nat) :
    overlayPairs w shard ps aid ci bi = overlayPairs u shard ps aid ci bi := by
  induction ps with
  | nil => rfl
  | cons p t ih =>
    show (match overlayPairs w shard t aid ci bi with
        | some v => some v
        | none => overlayPair w shard p.1 p.2 aid ci bi) = _
    rw [ih, overlayPair_congr w u shard h]
    rfl

theorem mergePairs_shape (shard : ComponentShard) :
    ∀ (ps : List (Nat × Entity)) (w : World),
      (mergePairs w shard ps).shape = w.shape := by
  intro ps
  induction ps with
  | nil => intro w; rfl
  | cons p t ih =>
    intro w
    show (mergePairs (w.merge_pair shard p.1 p.2) shard t).shape = _
    rw [ih, merge_pair_shape]

/-- Fold read characterization: after merging a list of pairs, a byte read
returns the last overlay value written at the address, or the old value. -/
theorem mergePairs_readByte (shard : ComponentShard) :
    ∀ (ps : List (Nat × Entity)) (w : World) (aid ci bi : Nat),
      (mergePairs w shard ps).readByte aid ci bi =
        match overlayPairs w shard ps aid ci bi with
        | some v => some v
        | none => w.readByte aid ci bi := by
  intro ps
  induction ps with
  | nil => intro w aid ci bi; rfl
  | cons p t ih =>
    intro w aid ci bi
    show (mergePairs (w.merge_pair shard p.1 p.2) shard t).readByte aid ci bi = _
    rw [ih]
    rw [overlayPairs_congr _ w shard (merge_pair_shape w shard p.1 p.2)]
    rw [merge_pair_readByte]
    show _ = (match (match overlayPairs w shard t aid ci bi with
        | some v => some v
        | none => overlayPair w shard p.1 p.2 aid ci bi) with
      | some v => some v
      | none => w.readByte aid ci bi)
    cases overlayPairs w shard t aid ci bi with
    | none => rfl
    | some v => rfl

/-! ### Extensionality: a world is determined by its shape and its bytes -/

theorem column_ext (c c2 : Column) (hshape : c.shape = c2.shape)
    (h : ∀ bi : Nat, c.data[bi]? = c2.data[bi]?) : c = c2 := by
  obtain ⟨t1, i1, d1⟩ := c
  obtain ⟨t2, i2, d2⟩ := c2
  simp only [Column.shape, Prod.mk.injEq] at hshape
  have hd : d1 = d2 := List.ext_getElem? h
  simp [hshape.1, hshape.2.1, hd]

theorem table_ext (t t2 : ArchetypeTable) (hshape : t.shape = t2.shape)
    (h : ∀ ci bi : Nat, (t.columns[ci]?).bind (fun c : Column => c.data[bi]?) =
      (t2.columns[ci]?).bind (fun c : Column => c.data[bi]?)) : t = t2 := by
  have hcols : t.columns.map Column.shape = t2.columns.map Column.shape :=
    congrArg (fun s => s.2.2.2) hshape
  have hc : t.columns = t2.columns := by
    apply List.ext_getElem?
    intro ci
    have hcg : (t.columns[ci]?).map Column.shape =
        (t2.columns[ci]?).map Column.shape := by
      rw [← List.getElem?_map, ← List.getElem?_map, hcols]
    cases hc1 : t.columns[ci]? with
    | none =>
      rw [hc1] at hcg
      cases hc2 : t2.columns[ci]? with
      | none => rfl
      | some c2 => rw [hc2] at hcg; simp at hcg
    | some c =>
      rw [hc1] at hcg
      cases hc2 : t2.columns[ci]? with
      | none => rw [hc2] at hcg; simp at hcg
      | some c2 =>
        rw [hc2] at hcg
        simp only [Option.map_some', Option.some.injEq] at hcg
        have hbytes : ∀ bi : Nat, c.data[bi]? = c2.data[bi]? := by
          intro bi
          have := h ci bi
          rw [hc1, hc2] at this
          simpa using this
        rw [column_ext c c2 hcg hbytes]
  obtain ⟨i1, ct1, e1, co1⟩ := t
  obtain ⟨i2, ct2, e2, co2⟩ := t2
  simp only [ArchetypeTable.shape, Prod.mk.injEq] at hshape
  simp [hshape.1, hshape.2.1, hshape.2.2.1, hc] at hc ⊢
  exact hc

theorem alGet_eq_none_of_not_mem {κ ν : Type} [DecidableEq κ] (k : κ)
    (l : List (κ × ν)) (h : k ∉ l.map Prod.fst) : alGet k l = none := by
  induction l with
  | nil => rfl
  | cons e t ih =>
    simp only [List.map_cons, List.mem_cons] at h
    push_neg at h
    simp only [alGet]
    rw [if_neg (fun he : e.1 = k => h.1 he.symm)]
    exact ih h.2

theorem archetypes_ext :
    ∀ (l1 l2 : List (Nat × ArchetypeTable)),
      (l1.map fun p => (p.1, p.2.shape)) = (l2.map fun p => (p.1, p.2.shape)) →
      (l1.map Prod.fst).Nodup →
      (∀ aid ci bi : Nat,
        (alGet aid l1).bind
          (fun t : ArchetypeTable => (t.columns[ci]?).bind fun c : Column => c.data[bi]?) =
        (alGet aid l2).bind
          (fun t : ArchetypeTable => (t.columns[ci]?).bind fun c : Column => c.data[bi]?)) →
      l1 = l2 := by
  intro l1
  induction l1 with
  | nil =>
    intro l2 hmap _ _
    cases l2 with
    | nil => rfl
    | cons e t => simp at hmap
  | cons e t ih =>
    intro l2 hmap hnodup hread
    cases l2 with
    | nil => simp at hmap
    | cons e2 t2 =>
      simp only [List.map_cons, List.cons.injEq, Prod.mk.injEq] at hmap
      obtain ⟨⟨hk, hsh⟩, hmt⟩ := hmap
      have hkeys : t.map Prod.fst = t2.map Prod.fst := by
        have := congrArg (List.map Prod.fst) hmt
        simpa [List.map_map, Function.comp] using this
      have hknotin : e.1 ∉ t.map Prod.fst := by
        simp only [List.map_cons, List.nodup_cons] at hnodup
        exact hnodup.1
      have hhead : e = e2 := by
        have hr := hread e.1
        have hg1 : alGet e.1 (e :: t) = some e.2 := by simp [alGet]
        have hg2 : alGet e.1 (e2 :: t2) = some e2.2 := by
          simp [alGet, hk.symm]
        have htab : e.2 = e2.2 := by
          apply table_ext _ _ hsh
          intro ci bi
          have := hread e.1 ci bi
          rw [hg1, hg2] at this
          simpa using this
        cases e; cases e2
        simp_all
      rw [hhead]
      congr 1
      apply ih t2 hmt (by
        simp only [List.map_cons, List.nodup_cons] at hnodup
        exact hnodup.2)
      intro aid ci bi
      by_cases haid : aid = e.1
      · subst haid
        rw [alGet_eq_none_of_not_mem _ _ hknotin,
            alGet_eq_none_of_not_mem _ _ (hkeys ▸ hknotin)]
      · have := hread aid ci bi
        rw [hhead] at this
        have hne1 : ¬ e.1 = aid := fun hx => haid hx.symm
        have hne2 : ¬ e2.1 = aid := fun hx => haid ((hhead ▸ hx).symm)
        simpa [alGet, hne1, hne2] using this

/-- A world is determined by its shape, its archetype keys being
duplicate-free, and its byte reads. -/
theorem world_ext (w u : World) (hshape : w.shape = u.shape)
    (hnodup : (w.archetypes.map Prod.fst).Nodup)
    (hread : ∀ aid ci bi, w.readByte aid ci bi = u.readByte aid ci bi) :
    w = u := by
  have hmap : (w.archetypes.map fun p => (p.1, p.2.shape)) =
      (u.archetypes.map fun p => (p.1, p.2.shape)) :=
    congrArg (fun s => s.2.2.2) hshape
  have harch : w.archetypes = u.archetypes :=
    archetypes_ext w.archetypes u.archetypes hmap hnodup
      (fun aid ci bi => hread aid ci bi)
  have hnext : w.allocator.next_id = u.allocator.next_id :=
    congrArg (fun s => s.1) hshape
  have hea : w.entity_archetype = u.entity_archetype :=
    congrArg (fun s => s.2.1) hshape
  have hts : w.type_set_to_archetype = u.type_set_to_archetype :=
    congrArg (fun s => s.2.2.1) hshape
  obtain ⟨⟨a1⟩, ar1, ea1, ts1⟩ := w
  obtain ⟨⟨a2⟩, ar2, ea2, ts2⟩ := u
  simp_all

theorem shape_archetype_keys (w u : World) (h : w.shape = u.shape) :
    w.archetypes.map Prod.fst = u.archetypes.map Prod.fst := by
  have hmap : (w.archetypes.map fun p => (p.1, p.2.shape)) =
      (u.archetypes.map fun p => (p.1, p.2.shape)) :=
    congrArg (fun s => s.2.2.2) h
  have := congrArg (List.map Prod.fst) hmap
  simpa [List.map_map, Function.comp] using this

/-! ### Example world for the merge claims: one entity in an archetype with a
single 4-byte column initialised to `00 00 00 00` (the spec's scenario 5,
mirroring the `test_merge_shard` test). -/

/-- Direct `push_raw` into one column of one table (the test writes the
initial row through `archetype_mut`). -/
def pushRawAt (w : World) (aid : ArchetypeId) (ci : Nat) (bytes : List Nat) : World :=
  { w with
      archetypes := alModify aid
        (fun t => { t with columns := listModify ci (fun c => c.push_raw bytes) t.columns })
        w.archetypes }

/-- The archetype id of the `{42}` type set. -/
def exMergeArch : ArchetypeId := ArchetypeId.from_component_types [42]

/-- Spawn the entity and initialise its 4-byte column with zeros. -/
def exMergeWorld : World :=
  pushRawAt (World.new.spawn [42] [4]).2 exMergeArch 0 [0, 0, 0, 0]

/-- The spec's merge shard: `ComponentShard(type=42, entities=[1],
data=[[01 02 03 04]])`. -/
def exMergeShard : ComponentShard := ⟨42, [1], [[1, 2, 3, 4]]⟩

/-- Read back one column row, resolving the entity's row first (the read
pattern of the spec's scenario and the source test). -/
def readComponentBytes (w : World) (aid : ArchetypeId) (ci : Nat) (e : Entity) :
    Option (List Nat) :=
  (w.archetype aid).bind fun t =>
    (t.entity_row e).bind fun row =>
      (t.columns[ci]?).bind fun c => c.get_raw row

/-! ### C8 — merge idempotence -/

/-- **C8** — Shard merge is idempotent: applying `merge_shard` with the same
shard twice in succession yields exactly the same byte state of the store as
applying it once.  (The archetype map's keys are duplicate-free in every
world the coordinator builds; the hypothesis states that.) -/
theorem merge_shard_idempotent (w : World) (shard : ComponentShard)
    (hnodup : (w.archetypes.map Prod.fst).Nodup) :
    (w.merge_shard shard).merge_shard shard = w.merge_shard shard := by
  have hsh : (w.merge_shard shard).shape = w.shape := by
    rw [merge_shard_eq_mergePairs]
    exact mergePairs_shape shard _ w
  have hsh2 : ((w.merge_shard shard).merge_shard shard).shape =
      (w.merge_shard shard).shape := by
    rw [merge_shard_eq_mergePairs (w.merge_shard shard) shard]
    exact mergePairs_shape shard _ _
  apply world_ext _ _ hsh2
  · rw [shape_archetype_keys _ _ hsh2, shape_archetype_keys _ _ hsh]
    exact hnodup
  · intro aid ci bi
    have hmr : (w.merge_shard shard).readByte aid ci bi =
        match overlayPairs w shard shard.entities.enum aid ci bi with
        | some v => some v
        | none => w.readByte aid ci bi := by
      rw [merge_shard_eq_mergePairs, mergePairs_readByte]
    have hmr2 : ((w.merge_shard shard).merge_shard shard).readByte aid ci bi =
        match overlayPairs w shard shard.entities.enum aid ci bi with
        | some v => some v
        | none => (w.merge_shard shard).readByte aid ci bi := by
      rw [merge_shard_eq_mergePairs (w.merge_shard shard), mergePairs_readByte,
        overlayPairs_congr _ w shard hsh]
    rw [hmr2, hmr]
    cases overlayPairs w shard shard.entities.enum aid ci bi with
    | some v => rfl
    | none => rfl

/-- Witness for C8: merging the spec's example shard twice equals merging it
once, on the concrete one-entity world. -/
theorem merge_shard_idempotent_witness :
    (exMergeWorld.merge_shard exMergeShard).merge_shard exMergeShard =
      exMergeWorld.merge_shard exMergeShard ∧
    (exMergeWorld.archetypes.map Prod.fst).Nodup :=
  ⟨merge_shard_idempotent exMergeWorld exMergeShard (by decide), by decide⟩

/-! ### C10 — merge frame effect -/

theorem overlayPairs_ne_none (w : World) (shard : ComponentShard)
    (ps : List (Nat × Entity)) (aid ci bi : Nat)
    (h : overlayPairs w shard ps aid ci bi ≠ none) :
    ∃ p ∈ ps, overlayPair w shard p.1 p.2 aid ci bi ≠ none := by
  induction ps with
  | nil => exact absurd rfl h
  | cons p t ih =>
    have hcons : overlayPairs w shard (p :: t) aid ci bi =
        match overlayPairs w shard t aid ci bi with
        | some v => some v
        | none => overlayPair w shard p.1 p.2 aid ci bi := rfl
    cases ho : overlayPairs w shard t aid ci bi with
    | some v =>
      obtain ⟨q, hq, hne⟩ := ih (by rw [ho]; simp)
      exact ⟨q, List.mem_cons_of_mem _ hq, hne⟩
    | none =>
      refine ⟨p, List.mem_cons_self _ _, ?_⟩
      rw [hcons, ho] at h
      exact h

/-- Unpacking a successful overlay: the written address lies inside the row
of a shard entity, in the column indexed by the shard's component type. -/
theorem overlayPair_spec (w : World) (shard : ComponentShard) (i : Nat) (e : Entity)
    (aid ci bi : Nat) (h : overlayPair w shard i e aid ci bi ≠ none) :
    alGet e w.entity_archetype = some aid ∧
    ∃ t, alGet aid w.archetypes = some t ∧
      t.column_index shard.component_type = some ci ∧
      ∃ row, t.entity_row e = some row ∧
        ∃ c, t.columns[ci]? = some c ∧
          row * c.item_size ≤ bi ∧ bi < row * c.item_size + c.item_size := by
  unfold overlayPair at h
  cases ha : alGet e w.entity_archetype with
  | none => rw [ha] at h; exact absurd rfl h
  | some aid2 =>
    rw [ha] at h
    dsimp only at h
    by_cases haid : aid2 = aid
    · subst haid
      rw [if_pos rfl] at h
      refine ⟨rfl, ?_⟩
      cases hat : alGet aid2 w.archetypes with
      | none => rw [hat] at h; exact absurd rfl h
      | some t =>
        rw [hat] at h
        dsimp only at h
        refine ⟨t, rfl, ?_⟩
        cases hci : t.column_index shard.component_type with
        | none => rw [hci] at h; dsimp only at h; exact absurd rfl h
        | some ci2 =>
          rw [hci] at h
          cases hrow : t.entity_row e with
          | none => rw [hrow] at h; dsimp only at h; exact absurd rfl h
          | some row =>
            rw [hrow] at h
            cases hb : shard.data[i]? with
            | none => rw [hb] at h; dsimp only at h; exact absurd rfl h
            | some bytes =>
              rw [hb] at h
              dsimp only at h
              by_cases hcc : ci2 = ci
              · subst hcc
                rw [if_pos rfl] at h
                refine ⟨rfl, row, rfl, ?_⟩
                cases hcol : t.columns[ci2]? with
                | none => rw [hcol] at h; dsimp only at h; exact absurd rfl h
                | some c =>
                  rw [hcol] at h
                  dsimp only at h
                  refine ⟨c, rfl, ?_⟩
                  by_cases hgt : row * c.item_size + c.item_size > c.data.length
                  · rw [if_pos hgt] at h; exact absurd rfl h
                  · rw [if_neg hgt] at h
                    by_cases hin : row * c.item_size ≤ bi ∧
                        bi < row * c.item_size + min c.item_size bytes.length
                    · have := Nat.min_le_left c.item_size bytes.length
                      exact ⟨hin.1, by omega⟩
                    · rw [if_neg hin] at h; exact absurd rfl h
              · rw [if_neg hcc] at h; exact absurd rfl h
    · rw [if_neg haid] at h; exact absurd rfl h

/-- **C10** — `merge_shard` changes only column byte contents: the archetype
tables (keys, type sets, entity sequences, column shapes), the
entity→archetype map, the type-set index, and the allocator counter are
unchanged, and a byte can differ only in a column whose stored type is the
shard's component type, inside the row of an entity listed in the shard.
The alignment hypothesis (column `i` stores type-set element `i`, as every
table built by `ArchetypeTable::new` does) ties the column's index to its
stored type. -/
theorem merge_shard_frame (w : World) (shard : ComponentShard)
    (halign : ∀ p ∈ w.archetypes,
      p.2.columns.map Column.type_id = p.2.component_types.take p.2.columns.length) :
    (w.merge_shard shard).shape = w.shape ∧
    (w.merge_shard shard).allocator = w.allocator ∧
    (w.merge_shard shard).entity_archetype = w.entity_archetype ∧
    (w.merge_shard shard).type_set_to_archetype = w.type_set_to_archetype ∧
    (∀ aid ci bi : Nat,
      (w.merge_shard shard).readByte aid ci bi ≠ w.readByte aid ci bi →
      ∃ t, w.archetype aid = some t ∧
        ∃ c, t.columns[ci]? = some c ∧ c.type_id = shard.component_type ∧
          ∃ e ∈ shard.entities, w.archetype_of e = some aid ∧
            ∃ row, t.entity_row e = some row ∧
              row * c.item_size ≤ bi ∧ bi < row * c.item_size + c.item_size) := by
  have hsh : (w.merge_shard shard).shape = w.shape := by
    rw [merge_shard_eq_mergePairs]
    exact mergePairs_shape shard _ w
  refine ⟨hsh, ?_, congrArg (fun s => s.2.1) hsh, congrArg (fun s => s.2.2.1) hsh, ?_⟩
  · have := congrArg (fun s => s.1) hsh
    cases hw : (w.merge_shard shard).allocator
    cases hu : w.allocator
    simp only [World.shape, hw, hu] at this
    simpa using this
  · intro aid ci bi hne
    have hmr : (w.merge_shard shard).readByte aid ci bi =
        match overlayPairs w shard shard.entities.enum aid ci bi with
        | some v => some v
        | none => w.readByte aid ci bi := by
      rw [merge_shard_eq_mergePairs, mergePairs_readByte]
    have hov : overlayPairs w shard shard.entities.enum aid ci bi ≠ none := by
      intro ho
      rw [hmr, ho] at hne
      exact hne rfl
    obtain ⟨p, hp, hpne⟩ :=
      overlayPairs_ne_none w shard shard.entities.enum aid ci bi hov
    obtain ⟨hea, t, hat, hci, row, hrow, c, hcol, hlo, hhi⟩ :=
      overlayPair_spec w shard p.1 p.2 aid ci bi hpne
    have hmem : p.2 ∈ shard.entities := by
      have hget : shard.entities[p.1]? = some p.2 := by
        have hpe : p ∈ shard.entities.enum := hp
        rw [List.mem_enum_iff_getElem?] at hpe
        exact hpe
      exact List.get?_mem (by simpa [List.get?_eq_getElem?] using hget)
    refine ⟨t, hat, c, hcol, ?_, p.2, hmem, hea, row, hrow, hlo, hhi⟩
    -- the column at the index of the shard's type stores the shard's type
    have htget : t.component_types[ci]? = some shard.component_type :=
      listPos_getElem _ _ _ hci
    have hcl : ci < t.columns.length := by
      by_contra hge
      rw [List.getElem?_eq_none (by omega)] at hcol
      cases hcol
    have halignt := halign (aid, t) (by
      have := alGet_mem aid t w.archetypes hat
      exact this)
    have : (t.columns.map Column.type_id)[ci]? = some c.type_id := by
      rw [List.getElem?_map, hcol]
      rfl
    rw [halignt] at this
    rw [List.getElem?_take_of_lt hcl] at this
    rw [htget] at this
    exact (Option.some.inj this).symm

/-- Witness for C10 at the concrete one-entity world: the shape, allocator
and maps survive the example merge. -/
theorem merge_shard_frame_witness :
    (exMergeWorld.merge_shard exMergeShard).shape = exMergeWorld.shape ∧
    (exMergeWorld.merge_shard exMergeShard).allocator = exMergeWorld.allocator ∧
    (exMergeWorld.merge_shard exMergeShard).entity_archetype =
      exMergeWorld.entity_archetype := by
  have h := merge_shard_frame exMergeWorld exMergeShard (by decide)
  exact ⟨h.1, h.2.1, h.2.2.1⟩

/-! ### C2 — per-pair merge semantics -/

theorem alModify_of_alGet_none {κ ν : Type} [DecidableEq κ] (k : κ) (f : ν → ν)
    (l : List (κ × ν)) (h : alGet k l = none) : alModify k f l = l := by
  induction l with
  | nil => rfl
  | cons e t ih =>
    by_cases he : e.1 = k
    · simp [alGet, he] at h
    · simp only [alGet, if_neg he] at h
      simp [alModify, he, ih h]

/-- The chain of lookups `merge_shard` performs for one `(entity, blob)`
pair; `some` exactly when the pair leads to a write. -/
def resolvePair (w : World) (shard : ComponentShard) (i : Nat) (e : Entity) :
    Option (ArchetypeId × ArchetypeTable × Nat × Nat × List Nat × Column) :=
  match w.archetype_of e with
  | none => none
  | some aid =>
    match w.archetype aid with
    | none => none
    | some t =>
      match t.column_index shard.component_type, t.entity_row e, shard.data[i]? with
      | some ci, some row, some bytes =>
        match t.columns[ci]? with
        | none => none
        | some c =>
          if row * c.item_size + c.item_size ≤ c.data.length then
            some (aid, t, ci, row, bytes, c)
          else none
      | _, _, _ => none

/-- A pair whose resolution fails is skipped: the world is unchanged. -/
theorem merge_pair_skip (w : World) (shard : ComponentShard) (i : Nat) (e : Entity)
    (h : resolvePair w shard i e = none) : w.merge_pair shard i e = w := by
  unfold resolvePair at h
  simp only [World.merge_pair]
  cases ha : w.archetype_of e with
  | none => rfl
  | some aid =>
    rw [ha] at h
    dsimp only at h
    dsimp only
    have harcheq : alModify aid
        (fun table =>
          match table.column_index shard.component_type, table.entity_row e,
              shard.data[i]? with
          | some col_idx, some row, some bytes =>
            { table with
                columns := listModify col_idx (fun c => c.write_at row bytes)
                  table.columns }
          | _, _, _ => table)
        w.archetypes = w.archetypes := by
      cases hat : alGet aid w.archetypes with
      | none => exact alModify_of_alGet_none _ _ _ hat
      | some t =>
        rw [show w.archetype aid = some t from hat] at h
        dsimp only at h
        apply alModify_congr_id
        intro v hv
        rw [hat] at hv
        obtain rfl : t = v := Option.some.inj hv
        cases hci : t.column_index shard.component_type with
        | none => rfl
        | some ci =>
          rw [hci] at h
          cases hrow : t.entity_row e with
          | none => rfl
          | some row =>
            rw [hrow] at h
            cases hb : shard.data[i]? with
            | none => rfl
            | some bytes =>
              rw [hb] at h
              dsimp only at h ⊢
              have hcols : listModify ci (fun c => c.write_at row bytes) t.columns =
                  t.columns := by
                apply listModify_congr_id
                intro c hc
                rw [hc] at h
                dsimp only at h
                simp only [Column.write_at]
                rw [if_pos ?_]
                by_contra hle
                push_neg at hle
                rw [if_pos hle] at h
                simp at h
              rw [hcols]
    rw [harcheq]

/-- Evaluating the overlay of a resolved pair inside its own row. -/
theorem overlayPair_of_resolved (w : World) (shard : ComponentShard) (i : Nat)
    (e : Entity) (aid : ArchetypeId) (t : ArchetypeTable) (ci row : Nat)
    (bytes : List Nat) (c : Column)
    (hea : w.archetype_of e = some aid) (hat : w.archetype aid = some t)
    (hci : t.column_index shard.component_type = some ci)
    (hrow : t.entity_row e = some row) (hb : shard.data[i]? = some bytes)
    (hcol : t.columns[ci]? = some c)
    (hbound : row * c.item_size + c.item_size ≤ c.data.length) (k : Nat) :
    overlayPair w shard i e aid ci (row * c.item_size + k) =
      if k < min c.item_size bytes.length then bytes[k]? else none := by
  unfold overlayPair
  rw [show alGet e w.entity_archetype = some aid from hea]
  dsimp only
  rw [if_pos rfl, show alGet aid w.archetypes = some t from hat]
  dsimp only
  rw [hci, hrow, hb]
  dsimp only
  rw [if_pos rfl, hcol]
  dsimp only
  rw [if_neg (by omega)]
  by_cases hk : k < min c.item_size bytes.length
  · rw [if_pos (by constructor <;> omega), if_pos hk]
    have hidx : row * c.item_size + k - row * c.item_size = k := by omega
    rw [hidx, List.getElem?_take_of_lt hk]
  · rw [if_neg (by omega), if_neg hk]

/-- A different entity's pair never writes inside this entity's row. -/
theorem overlayPair_other_none (w : World) (shard : ComponentShard) (j : Nat)
    (e2 : Entity) (e : Entity) (aid : ArchetypeId) (t : ArchetypeTable)
    (ci row : Nat) (c : Column)
    (hat : w.archetype aid = some t)
    (hci : t.column_index shard.component_type = some ci)
    (hrow : t.entity_row e = some row)
    (hcol : t.columns[ci]? = some c)
    (hne : e2 ≠ e) (k : Nat) (hk : k < c.item_size) :
    overlayPair w shard j e2 aid ci (row * c.item_size + k) = none := by
  unfold overlayPair
  cases ha2 : alGet e2 w.entity_archetype with
  | none => rfl
  | some aid2 =>
    dsimp only
    by_cases haid : aid2 = aid
    · subst haid
      rw [if_pos rfl, show alGet aid2 w.archetypes = some t from hat]
      dsimp only
      rw [hci]
      cases hrow2 : t.entity_row e2 with
      | none =>
        cases hbj : shard.data[j]? <;> rfl
      | some row2 =>
        cases hbj : shard.data[j]? with
        | none => rfl
        | some bytes2 =>
          dsimp only
          rw [if_pos rfl, hcol]
          dsimp only
          by_cases hgt : row2 * c.item_size + c.item_size > c.data.length
          · rw [if_pos hgt]
          · rw [if_neg hgt]
            have hrr : row2 ≠ row :=
              listPos_inj e2 e t.entities row2 row hrow2 hrow hne
            have hmin : min c.item_size bytes2.length ≤ c.item_size :=
              Nat.min_le_left _ _
            rcases Nat.lt_or_ge row2 row with hlt | hge
            · have hmul : (row2 + 1) * c.item_size ≤ row * c.item_size :=
                Nat.mul_le_mul_right _ (by omega)
              rw [Nat.succ_mul] at hmul
              rw [if_neg (by omega)]
            · have hlt2 : row < row2 := by omega
              have hmul : (row + 1) * c.item_size ≤ row2 * c.item_size :=
                Nat.mul_le_mul_right _ (by omega)
              rw [Nat.succ_mul] at hmul
              rw [if_neg (by omega)]
    · rw [if_neg haid]

theorem overlayPairs_all_none (w : World) (shard : ComponentShard)
    (ps : List (Nat × Entity)) (aid ci bi : Nat)
    (h : ∀ p ∈ ps, overlayPair w shard p.1 p.2 aid ci bi = none) :
    overlayPairs w shard ps aid ci bi = none := by
  induction ps with
  | nil => rfl
  | cons p t ih =>
    show (match overlayPairs w shard t aid ci bi with
      | some v => some v
      | none => overlayPair w shard p.1 p.2 aid ci bi) = none
    rw [ih (fun q hq => h q (List.mem_cons_of_mem _ hq))]
    exact h p (List.mem_cons_self _ _)

/-- When every other pair's overlay misses the address, the fold reduces to
the one pair's overlay. -/
theorem overlayPairs_single (w : World) (shard : ComponentShard)
    (ps : List (Nat × Entity)) (p : Nat × Entity) (aid ci bi : Nat)
    (hp : p ∈ ps)
    (h : ∀ q ∈ ps, q ≠ p → overlayPair w shard q.1 q.2 aid ci bi = none) :
    overlayPairs w shard ps aid ci bi = overlayPair w shard p.1 p.2 aid ci bi := by
  induction ps with
  | nil => cases hp
  | cons q t ih =>
    have hcons : overlayPairs w shard (q :: t) aid ci bi =
        match overlayPairs w shard t aid ci bi with
        | some v => some v
        | none => overlayPair w shard q.1 q.2 aid ci bi := rfl
    by_cases hpt : p ∈ t
    · rw [hcons, ih hpt (fun r hr hrp => h r (List.mem_cons_of_mem _ hr) hrp)]
      cases ho : overlayPair w shard p.1 p.2 aid ci bi with
      | some v => rfl
      | none =>
        by_cases hq : q = p
        · rw [hq, ho]
        · rw [h q (List.mem_cons_self _ _) hq]
    · have hqp : q = p := by
        rcases List.mem_cons.mp hp with h1 | h1
        · exact h1.symm
        · exact absurd h1 hpt
      subst hqp
      rw [hcons, overlayPairs_all_none w shard t aid ci bi
        (fun r hr => h r (List.mem_cons_of_mem _ hr) (fun hrq => hpt (hrq ▸ hr)))]

/-- The counterexample world: merging a 1-byte blob into the 4-byte row. -/
def exShortShard : ComponentShard := ⟨42, [1], [[9]]⟩

/-- Counterexample to C2 as stated: merging blob `[9]` into a 4-byte row
initialised to zeros yields `[9, 0, 0, 0]` — the stored blob is *not*
replaced by the incoming blob (which would be `[9]`); only the common-length
byte segment is overwritten. -/
theorem merge_shard_counterexample :
    readComponentBytes (exMergeWorld.merge_shard exShortShard) exMergeArch 0 1 =
      some [9, 0, 0, 0] ∧
    readComponentBytes (exMergeWorld.merge_shard exShortShard) exMergeArch 0 1 ≠
      some exShortShard.data.head! := by
  constructor
  · decide
  · decide

/-- **C2 (amended)** — For every `(entity, blob)` pair of a shard with
duplicate-free entities: if the entity resolves to an archetype with a
column for the shard's type and the entity has an in-bounds row there, then
`merge_shard` overwrites the first `min(item_size, |blob|)` bytes of the row
with the blob's corresponding bytes and leaves the rest of the row's bytes
unchanged (a full replacement exactly when the blob length equals the
column's item size, as in the spec's 4-byte example, which yields
`01 02 03 04`); a shard none of whose pairs resolves (unknown entity, column,
or row) leaves the store unchanged. -/
theorem merge_shard_overwrite_semantics :
    readComponentBytes (exMergeWorld.merge_shard exMergeShard) exMergeArch 0 1 =
      some [1, 2, 3, 4] ∧
    (∀ (w : World) (shard : ComponentShard), shard.entities.Nodup →
      ∀ (i : Nat) (e : Entity) (aid : ArchetypeId) (t : ArchetypeTable)
        (ci row : Nat) (bytes : List Nat) (c : Column),
        (i, e) ∈ shard.entities.enum →
        w.archetype_of e = some aid → w.archetype aid = some t →
        t.column_index shard.component_type = some ci →
        t.entity_row e = some row → shard.data[i]? = some bytes →
        t.columns[ci]? = some c →
        row * c.item_size + c.item_size ≤ c.data.length →
        ∀ k < c.item_size,
          (w.merge_shard shard).readByte aid ci (row * c.item_size + k) =
            if k < min c.item_size bytes.length then bytes[k]?
            else c.data[row * c.item_size + k]?) ∧
    (∀ (w : World) (shard : ComponentShard),
      (∀ p ∈ shard.entities.enum, resolvePair w shard p.1 p.2 = none) →
      w.merge_shard shard = w) := by
  refine ⟨by decide, ?_, ?_⟩
  · intro w shard hnd i e aid t ci row bytes c hp hea hat hci hrow hb hcol hbound k hk
    have huniq : ∀ q ∈ shard.entities.enum, q ≠ (i, e) →
        overlayPair w shard q.1 q.2 aid ci (row * c.item_size + k) = none := by
      intro q hq hne
      by_cases he2 : q.2 = e
      · exfalso
        apply hne
        have hqi : q.1 = i := by
          have h1 : shard.entities[q.1]? = some e := by
            have := (List.mem_enum_iff_getElem?).mp hq
            rw [he2] at this
            exact this
          have h2 : shard.entities[i]? = some e :=
            (List.mem_enum_iff_getElem?).mp hp
          have hlt : q.1 < shard.entities.length := by
            by_contra hge
            rw [List.getElem?_eq_none (by omega)] at h1
            cases h1
          exact List.getElem?_inj hlt hnd (h1.trans h2.symm)
        obtain ⟨q1, q2⟩ := q
        simp only at hqi he2
        rw [hqi, he2]
      · exact overlayPair_other_none w shard q.1 q.2 e aid t ci row c
          hat hci hrow hcol he2 k hk
    rw [merge_shard_eq_mergePairs, mergePairs_readByte,
      overlayPairs_single w shard _ (i, e) _ _ _ hp huniq,
      overlayPair_of_resolved w shard i e aid t ci row bytes c
        hea hat hci hrow hb hcol hbound k]
    by_cases hkm : k < min c.item_size bytes.length
    · rw [if_pos hkm, if_pos hkm]
      have hkb : k < bytes.length := by
        have := Nat.min_le_right c.item_size bytes.length
        omega
      rw [List.getElem?_eq_getElem hkb]
    · rw [if_neg hkm, if_neg hkm]
      show w.readByte aid ci (row * c.item_size + k) = _
      simp only [World.readByte]
      rw [show alGet aid w.archetypes = some t from hat]
      simp only [Option.some_bind]
      rw [hcol]
      rfl
  · intro w shard h
    rw [merge_shard_eq_mergePairs]
    have haux : ∀ ps : List (Nat × Entity),
        (∀ p ∈ ps, resolvePair w shard p.1 p.2 = none) →
        mergePairs w shard ps = w := by
      intro ps
      induction ps with
      | nil => intro _; rfl
      | cons p t ih =>
        intro hall
        show mergePairs (w.merge_pair shard p.1 p.2) shard t = w
        rw [merge_pair_skip w shard p.1 p.2 (hall p (List.mem_cons_self _ _))]
        exact ih (fun q hq => hall q (List.mem_cons_of_mem _ hq))
    exact haux _ h

/-- Witness for C2 (amended): the in-range and out-of-range reads of the
4-byte example row after merging the short blob `[9]`, plus the skip case on
an unknown entity. -/
theorem merge_shard_overwrite_semantics_witness :
    readComponentBytes (exMergeWorld.merge_shard exMergeShard) exMergeArch 0 1 =
      some [1, 2, 3, 4] ∧
    (exMergeWorld.merge_shard exShortShard).readByte exMergeArch 0 0 = some 9 ∧
    (exMergeWorld.merge_shard exShortShard).readByte exMergeArch 0 1 = some 0 ∧
    exMergeWorld.merge_shard ⟨42, [99], [[1, 2, 3, 4]]⟩ = exMergeWorld := by
  have h := merge_shard_overwrite_semantics
  refine ⟨h.1, ?_, ?_, ?_⟩
  · have := h.2.1 exMergeWorld exShortShard (by decide) 0 1 exMergeArch
      ((exMergeWorld.archetype exMergeArch).get (by decide)) 0 0 [9]
      (((exMergeWorld.archetype exMergeArch).get (by decide)).columns.get ⟨0, by decide⟩)
      (by decide) (by decide) (by decide) (by decide) (by decide) (by decide)
      (by decide) (by decide) 0 (by decide)
    simpa using this
  · have := h.2.1 exMergeWorld exShortShard (by decide) 0 1 exMergeArch
      ((exMergeWorld.archetype exMergeArch).get (by decide)) 0 0 [9]
      (((exMergeWorld.archetype exMergeArch).get (by decide)).columns.get ⟨0, by decide⟩)
      (by decide) (by decide) (by decide) (by decide) (by decide) (by decide)
      (by decide) (by decide) 1 (by decide)
    simpa using this
  · refine h.2.2 exMergeWorld ⟨42, [99], [[1, 2, 3, 4]]⟩ ?_
    intro p hp
    have hp0 : p = (0, 99) := by simpa [List.enum, List.enumFrom] using hp
    subst hp0
    rfl

/-! ### C9 — decode-failure handling -/

/-- Counterexample to C9 as stated: a schedule message whose payload fails
to decode makes the worker's run loop terminate with an error — the `?` on
the schedule decode propagates the failure instead of dropping the message
and proceeding. -/
theorem schedule_decode_failure_fatal :
    workerHandleSchedule ⟨none, Payload.garbage []⟩ [] =
      Except.error NetError.Decode := rfl

/-- **C9 (amended)** — A decode failure on a component-shard payload is not
fatal: the worker's data drain skips the message and continues, and the
coordinator's changed-stream drain skips it leaving the world and sentinel
count unchanged.  A decode failure on a schedule message, however,
propagates as an error and terminates the worker's run loop. -/
theorem decode_failure_handling :
    (∀ (m : BrokerMsg) (rest : List BrokerMsg),
      m.msg_type ≠ some "data_done" → decodeShard m.payload = none →
      drainDataShards (m :: rest) = drainDataShards rest) ∧
    (∀ (w : World) (n : Nat) (m : BrokerMsg),
      m.msg_type ≠ some "changes_done" → decodeShard m.payload = none →
      coordHandleChangedMsg w n m = (w, n)) ∧
    (∀ (m : BrokerMsg) (data_msgs : List BrokerMsg),
      decodeSchedule m.payload = none →
      workerHandleSchedule m data_msgs = Except.error NetError.Decode) := by
  refine ⟨?_, ?_, ?_⟩
  · intro m rest hmt hdec
    simp only [drainDataShards, if_neg hmt, hdec]
  · intro w n m hmt hdec
    simp only [coordHandleChangedMsg, if_neg hmt, hdec]
  · intro m data_msgs hdec
    simp only [workerHandleSchedule, hdec]

/-- Witness for C9 (amended) on concrete garbage payloads. -/
theorem decode_failure_handling_witness :
    drainDataShards [⟨none, Payload.garbage [1, 2]⟩] = drainDataShards [] ∧
    coordHandleChangedMsg World.new 0 ⟨none, Payload.garbage [1, 2]⟩ =
      (World.new, 0) ∧
    workerHandleSchedule ⟨none, Payload.garbage [1, 2]⟩ [] =
      Except.error NetError.Decode :=
  ⟨decode_failure_handling.1 ⟨none, Payload.garbage [1, 2]⟩ [] (by decide) rfl,
   decode_failure_handling.2.1 World.new 0 ⟨none, Payload.garbage [1, 2]⟩ (by decide) rfl,
   decode_failure_handling.2.2 ⟨none, Payload.garbage [1, 2]⟩ [] rfl⟩

/-! ### C6 — pending-change queue semantics -/

/-- **C6** — The pending-change queue is drained in FIFO order, atomically at
the start of a tick and before stages are recomputed: after `tick` the queue
is empty, the registry is the left (FIFO) fold of the queued changes over
the pre-tick registry, and whenever the drain (or an already-dirty flag)
leaves the stages dirty, the stage list is recomputed from the post-drain
registry.  Consequently, enqueueing Register of `inst-1` under `physics`
followed by Unregister of the same pair and running one tick leaves the
registry empty (zero systems, zero instances). -/
theorem tick_applies_pending_fifo :
    (∀ t : TickLoop,
      t.tick.pending_changes = [] ∧
      t.tick.registry =
        (t.pending_changes.foldl applyChange (t.registry, t.stages_dirty)).1 ∧
      t.tick.stages =
        (if (t.pending_changes.foldl applyChange (t.registry, t.stages_dirty)).2 then
          compute_stages (registrySystems
            (t.pending_changes.foldl applyChange (t.registry, t.stages_dirty)).1)
        else t.stages)) ∧
    ((TickLoop.new.enqueue_change (.Register exDescriptor1)).enqueue_change
        (.Unregister "physics" "inst-1") |>.tick.registry.system_count) = 0 ∧
    ((TickLoop.new.enqueue_change (.Register exDescriptor1)).enqueue_change
        (.Unregister "physics" "inst-1") |>.tick.registry.total_instances) = 0 := by
  refine ⟨?_, by decide, by decide⟩
  intro t
  by_cases hp : t.pending_changes = []
  · by_cases hd : t.stages_dirty
    · simp [TickLoop.tick, TickLoop.apply_pending_changes, TickLoop.recompute_stages, hp, hd]
    · have hd2 : t.stages_dirty = false := Bool.of_not_eq_true hd
      simp [TickLoop.tick, TickLoop.apply_pending_changes, hp, hd2]
  · by_cases hd : (t.pending_changes.foldl applyChange (t.registry, t.stages_dirty)).2 = true
    · simp [TickLoop.tick, TickLoop.apply_pending_changes, TickLoop.recompute_stages, hp, hd]
    · have hd2 : (t.pending_changes.foldl applyChange (t.registry, t.stages_dirty)).2 = false :=
        Bool.of_not_eq_true hd
      simp [TickLoop.tick, TickLoop.apply_pending_changes, hp, hd2]

/-- Witness for C5: the first-fit equality and the order property evaluated
at the example input. -/
theorem compute_stages_is_first_fit_witness :
    compute_stages exampleSystems = firstFitStages exampleSystems ∧
    (Stage.mk [0, 1]).system_indices.Chain' (· < ·) ∧
    (compute_stages exampleSystems).map Stage.system_indices = [[0, 1], [2]] :=
  ⟨compute_stages_is_first_fit.1 exampleSystems,
   compute_stages_is_first_fit.2.1 exampleSystems ⟨[0, 1]⟩ (by decide),
   compute_stages_is_first_fit.2.2⟩

/-! ### C3 / C4 — the public `World` operations as a transition system -/

/-- The public mutating operations of `World`. -/
inductive WorldOp
  | spawn (types : List ComponentTypeId) (sizes : List Nat)
  | spawn_empty
  | spawn_with_data (types : List ComponentTypeId) (data : List (List Nat))
      (sizes : List Nat)
  | despawn (e : Entity)
  | merge_shard (s : ComponentShard)

/-- Apply one operation (its returned value is discarded). -/
def applyOp (w : World) : WorldOp → World
  | .spawn types sizes => (w.spawn types sizes).2
  | .spawn_empty => w.spawn_empty.2
  | .spawn_with_data types data sizes =>
    match w.spawn_with_data types data sizes with
    | some r => r.2
    | none => w
  | .despawn e => (w.despawn e).2
  | .merge_shard s => w.merge_shard s

/-- Apply a sequence of operations in order. -/
def applyOps (w : World) (ops : List WorldOp) : World :=
  ops.foldl applyOp w

/-- C3's invariant on one table: positive item sizes and one full slot per
entity in every column. -/
def TableAligned (t : ArchetypeTable) : Prop :=
  ∀ c ∈ t.columns, 0 < c.item_size ∧ c.data.length = c.item_size * t.entities.length

/-- C3's invariant on the whole store. -/
def WorldAligned (w : World) : Prop :=
  ∀ p ∈ w.archetypes, TableAligned p.2

/-- The conditions under which a `spawn_with_data` call writes one full slot
into every column: sorted duplicate-free types, parallel slices, positive
blob sizes matching the sizes slice, and — when the type set already has an
archetype — the existing column sizes matching the sizes slice. -/
def ValidSpawnData (w : World) (types : List ComponentTypeId)
    (data : List (List Nat)) (sizes : List Nat) : Prop :=
  types.Chain' (· < ·) ∧
  btreeOfList types = types ∧
  types.length = data.length ∧
  types.length = sizes.length ∧
  (∀ p ∈ sizes.zip data, 0 < p.1 ∧ p.2.length = p.1) ∧
  (match alGet types w.type_set_to_archetype with
   | none => True
   | some aid =>
     match alGet aid w.archetypes with
     | none => False
     | some t =>
       t.component_types = types ∧ t.columns.map Column.item_size = sizes)

/-- Validity of a whole sequence for the alignment claim: bare `spawn` is
excluded (it leaves the new row's columns unfilled) and each
`spawn_with_data` is well-formed at its point of application. -/
def AlignOpsValid : World → List WorldOp → Prop
  | _, [] => True
  | w, op :: rest =>
    (match op with
     | .spawn _ _ => False
     | .spawn_with_data types data sizes => ValidSpawnData w types data sizes
     | _ => True) ∧
    AlignOpsValid (applyOp w op) rest

theorem mem_alInsert {κ ν : Type} [DecidableEq κ] (k : κ) (v : ν)
    (l : List (κ × ν)) (p : κ × ν) (h : p ∈ alInsert k v l) :
    p = (k, v) ∨ p ∈ l := by
  induction l with
  | nil => simpa [alInsert] using h
  | cons e t ih =>
    simp only [alInsert] at h
    by_cases he : e.1 = k
    · rw [if_pos he] at h
      rcases List.mem_cons.mp h with rfl | h
      · exact Or.inl rfl
      · exact Or.inr (List.mem_cons_of_mem _ h)
    · rw [if_neg he] at h
      rcases List.mem_cons.mp h with rfl | h
      · exact Or.inr (List.mem_cons_self _ _)
      · rcases ih h with h1 | h1
        · exact Or.inl h1
        · exact Or.inr (List.mem_cons_of_mem _ h1)

theorem mem_alModify {κ ν : Type} [DecidableEq κ] (k : κ) (f : ν → ν)
    (l : List (κ × ν)) (p : κ × ν) (h : p ∈ alModify k f l) :
    p ∈ l ∨ ∃ v, alGet k l = some v ∧ p = (k, f v) := by
  induction l with
  | nil => simp [alModify] at h
  | cons e t ih =>
    simp only [alModify] at h
    by_cases he : e.1 = k
    · rw [if_pos he] at h
      rcases List.mem_cons.mp h with rfl | h
      · exact Or.inr ⟨e.2, by simp [alGet, he], by rw [he]⟩
      · exact Or.inl (List.mem_cons_of_mem _ h)
    · rw [if_neg he] at h
      rcases List.mem_cons.mp h with rfl | h
      · exact Or.inl (List.mem_cons_self _ _)
      · rcases ih h with h1 | ⟨v, hv1, hv2⟩
        · exact Or.inl (List.mem_cons_of_mem _ h1)
        · exact Or.inr ⟨v, by simp [alGet, he, hv1], hv2⟩

theorem swapRemove_length {α : Type} (l : List α) (pos : Nat) (h : l ≠ []) :
    (swapRemove l pos).length = l.length - 1 := by
  simp only [swapRemove]
  cases hl : l.getLast? with
  | none => exact absurd (List.getLast?_eq_none_iff.mp hl) h
  | some x => simp

theorem mem_swapRemove {α : Type} [DecidableEq α] (l : List α) (pos : Nat)
    (x : α) (hx : x ∈ l) (hpos : pos < l.length) (hne : l[pos]? ≠ some x) :
    x ∈ swapRemove l pos := by
  have hnonempty : l ≠ [] := by
    intro h0
    rw [h0] at hx
    cases hx
  obtain ⟨q, hq, hqx⟩ := List.getElem_of_mem hx
  have hqget : l[q]? = some x := by
    rw [List.getElem?_eq_getElem hq]
    exact congrArg some hqx
  have hqpos : q ≠ pos := by
    intro h0
    rw [h0] at hqget
    exact hne hqget
  simp only [swapRemove]
  cases hl : l.getLast? with
  | none => exact absurd (List.getLast?_eq_none_iff.mp hl) hnonempty
  | some last =>
    dsimp only
    have hlast : l[l.length - 1]? = some last := by
      rw [List.getLast?_eq_getLast l hnonempty, Option.some.injEq] at hl
      rw [← hl, List.getLast_eq_getElem]
      exact List.getElem?_eq_getElem (by omega)
    by_cases hq1 : q < l.length - 1
    · refine List.mem_iff_getElem?.mpr ⟨q, ?_⟩
      rw [List.getElem?_dropLast,
        if_pos (show q < (l.set pos last).length - 1 by rw [List.length_set]; omega)]
      rw [List.getElem?_set_ne (fun h0 => hqpos h0.symm)]
      exact hqget
    · have hq2 : q = l.length - 1 := by omega
      have hxlast : some x = some last := (hq2 ▸ hqget).symm.trans hlast
      have hpos1 : pos < l.length - 1 := by omega
      refine List.mem_iff_getElem?.mpr ⟨pos, ?_⟩
      rw [List.getElem?_dropLast,
        if_pos (show pos < (l.set pos last).length - 1 by rw [List.length_set]; omega)]
      rw [List.getElem?_set_self (by omega), ← hxlast]

/-- Total blob length pushed into column `j` by a list of (type, blob)
pairs. -/
def addedLen (types : List ComponentTypeId) (j : Nat) :
    List (ComponentTypeId × List Nat) → Nat
  | [] => 0
  | p :: rest =>
    (if listPos p.1 types = some j then p.2.length else 0) + addedLen types j rest

theorem pushComponentData_frame (t : ArchetypeTable) (p : ComponentTypeId × List Nat) :
    (pushComponentData t p).component_types = t.component_types ∧
    (pushComponentData t p).entities = t.entities := by
  unfold pushComponentData
  cases t.column_index p.1 <;> exact ⟨rfl, rfl⟩

theorem foldPush_frame :
    ∀ (pl : List (ComponentTypeId × List Nat)) (t : ArchetypeTable),
      (pl.foldl pushComponentData t).component_types = t.component_types ∧
      (pl.foldl pushComponentData t).entities = t.entities := by
  intro pl
  induction pl with
  | nil => intro t; exact ⟨rfl, rfl⟩
  | cons p rest ih =>
    intro t
    have h1 := pushComponentData_frame t p
    have h2 := ih (pushComponentData t p)
    exact ⟨h2.1.trans h1.1, h2.2.trans h1.2⟩

/-- Each column's byte length grows by exactly the blob lengths routed to
it; type and item size never change. -/
theorem foldPush_columns :
    ∀ (pl : List (ComponentTypeId × List Nat)) (t : ArchetypeTable) (j : Nat),
      ((pl.foldl pushComponentData t).columns[j]?).map Column.shape =
        (t.columns[j]?).map fun c =>
          (c.type_id, c.item_size, c.data.length + addedLen t.component_types j pl) := by
  intro pl
  induction pl with
  | nil =>
    intro t j
    simp only [List.foldl_nil, addedLen]
    cases t.columns[j]? <;> simp [Column.shape]
  | cons p rest ih =>
    intro t j
    simp only [List.foldl_cons]
    rw [ih (pushComponentData t p) j]
    have hct : (pushComponentData t p).component_types = t.component_types :=
      (pushComponentData_frame t p).1
    rw [hct]
    simp only [addedLen]
    unfold pushComponentData
    cases hci : t.column_index p.1 with
    | none =>
      have hfalse : listPos p.1 t.component_types = some j → False := by
        intro h0
        rw [show t.column_index p.1 = listPos p.1 t.component_types from rfl, h0] at hci
        cases hci
      rw [if_neg hfalse]
      cases t.columns[j]? <;> simp
    | some ci =>
      show ((listModify ci (fun c => c.push_raw p.2) t.columns)[j]?).map _ = _
      by_cases hj : j = ci
      · subst hj
        rw [listModify_getElem_self]
        have htrue : listPos p.1 t.component_types = some j := hci
        rw [if_pos htrue]
        cases t.columns[j]?
        · simp
        · simp [Column.push_raw]
          omega
      · rw [listModify_getElem_ne _ _ _ _ hj]
        have hfalse : listPos p.1 t.component_types = some j → False := by
          intro h0
          have : t.column_index p.1 = some j := h0
          rw [hci] at this
          exact hj (Option.some.inj this).symm
        rw [if_neg hfalse]
        cases t.columns[j]? <;> simp

theorem listPos_nodup_getElem {α : Type} [DecidableEq α] (l : List α)
    (hnd : l.Nodup) (j : Nat) (x : α) (h : l[j]? = some x) :
    listPos x l = some j := by
  induction l generalizing j with
  | nil => simp at h
  | cons y t ih =>
    cases j with
    | zero =>
      simp only [List.getElem?_cons_zero, Option.some.injEq] at h
      subst h
      simp [listPos]
    | succ j2 =>
      simp only [List.getElem?_cons_succ] at h
      have hynx : y ≠ x := by
        intro h0
        subst h0
        simp only [List.nodup_cons] at hnd
        exact hnd.1 (List.get?_mem (by simpa [List.get?_eq_getElem?] using h))
      simp only [listPos, if_neg hynx]
      rw [ih (List.nodup_cons.mp hnd).2 j2 h]
      rfl

/-- Evaluating `addedLen` on the zip of a type-list suffix with parallel
data: each column receives exactly its own blob. -/
theorem addedLen_drop (types : List ComponentTypeId) (hnd : types.Nodup) :
    ∀ (dl : List (List Nat)) (m j : Nat),
      addedLen types j ((types.drop m).zip dl) =
        if m ≤ j ∧ j - m < ((types.drop m).zip dl).length then
          ((dl[j - m]?).getD []).length
        else 0 := by
  intro dl
  induction dl with
  | nil =>
    intro m j
    cases types.drop m <;> simp [addedLen]
  | cons b dl2 ih =>
    intro m j
    cases htl : types.drop m with
    | nil => simp [addedLen]
    | cons ty tl =>
      have hm : m < types.length := by
        by_contra h0
        rw [List.drop_eq_nil_of_le (by omega)] at htl
        cases htl
      have hty : types[m]? = some ty := by
        have h0 : (types.drop m).head? = some ty := by rw [htl]; rfl
        rwa [List.head?_drop] at h0
      have htl2 : types.drop (m + 1) = tl := by
        have := congrArg List.tail htl
        simpa [List.tail_drop] using this
      simp only [List.zip_cons_cons, addedLen]
      rw [listPos_nodup_getElem types hnd m ty hty]
      have ihm := ih (m + 1) j
      rw [htl2] at ihm
      have hz : List.zipWith Prod.mk tl dl2 = tl.zip dl2 := rfl
      rw [hz, ihm]
      by_cases hj : j = m
      · subst hj
        rw [if_pos rfl]
        rw [if_neg (by omega)]
        rw [if_pos (by refine ⟨Nat.le_refl j, ?_⟩; simp only [List.length_cons]; omega)]
        simp
      · rw [if_neg (fun h0 => hj (Option.some.inj h0).symm)]
        by_cases hcond : m + 1 ≤ j ∧ j - (m + 1) < (tl.zip dl2).length
        · rw [if_pos hcond, if_pos (by simp only [List.length_cons]; omega)]
          have hidx : j - m = (j - (m + 1)) + 1 := by omega
          rw [hidx]
          simp
        · rw [if_neg hcond, if_neg (by simp only [List.length_cons]; omega)]

/-- After appending the new entity and running the push loop, a table whose
columns matched the data sizes is aligned again. -/
theorem swd_fold_aligned (types : List ComponentTypeId) (data : List (List Nat))
    (t : ArchetypeTable) (e : Entity)
    (hnd : types.Nodup)
    (hct : t.component_types = types)
    (hlen : types.length = data.length)
    (hcols : t.columns.length = types.length)
    (haligned : TableAligned t)
    (hsz : ∀ (j : Nat) (c : Column), t.columns[j]? = some c →
      ((data[j]?).getD []).length = c.item_size) :
    TableAligned
      ((types.zip data).foldl pushComponentData { t with entities := t.entities ++ [e] }) := by
  intro c hc
  set t1 : ArchetypeTable := { t with entities := t.entities ++ [e] } with ht1
  obtain ⟨j, hj⟩ := List.mem_iff_getElem?.mp hc
  have hchar := foldPush_columns (types.zip data) t1 j
  rw [hj] at hchar
  have hct1 : t1.component_types = types := hct
  cases hcj : t1.columns[j]? with
  | none => rw [hcj] at hchar; simp at hchar
  | some c0 =>
    rw [hcj] at hchar
    simp only [Option.map_some', Option.some.injEq, Column.shape, Prod.mk.injEq] at hchar
    have hjlt : j < t.columns.length := by
      by_contra h0
      rw [show t1.columns = t.columns from rfl] at hcj
      rw [List.getElem?_eq_none (by omega)] at hcj
      cases hcj
    have hc0mem : c0 ∈ t.columns := by
      have : t.columns[j]? = some c0 := hcj
      exact List.mem_iff_getElem?.mpr ⟨j, this⟩
    have hal := haligned c0 hc0mem
    have hadd : addedLen types j (types.zip data) = ((data[j]?).getD []).length := by
      have h0 := addedLen_drop types hnd data 0 j
      simp only [List.drop_zero, Nat.sub_zero, Nat.zero_le, true_and] at h0
      rw [h0, if_pos ?_]
      rw [List.length_zip]
      omega
    have hszj := hsz j c0 (by exact hcj)
    have hent : ((types.zip data).foldl pushComponentData t1).entities =
        t.entities ++ [e] := (foldPush_frame (types.zip data) t1).2
    have hcte : t1.component_types = t.component_types := rfl
    rw [hct1, hadd, hszj] at hchar
    constructor
    · rw [hchar.2.1]
      exact hal.1
    · rw [hchar.2.2, hchar.2.1, hent, hal.2, List.length_append, List.length_singleton]
      ring

/-- Derive the per-column data-size condition of `swd_fold_aligned` from a
column/size map equality and the blob-size conditions. -/
theorem cols_sizes_hsz (t : ArchetypeTable) (sizes : List Nat) (data : List (List Nat))
    (hmap : t.columns.map Column.item_size = sizes)
    (hlen2 : sizes.length = data.length)
    (hzip : ∀ p ∈ sizes.zip data, 0 < p.1 ∧ p.2.length = p.1) :
    ∀ (j : Nat) (c : Column), t.columns[j]? = some c →
      ((data[j]?).getD []).length = c.item_size := by
  intro j c hc
  have hs : sizes[j]? = some c.item_size := by
    rw [← hmap, List.getElem?_map, hc]
    rfl
  have hjlt : j < sizes.length := by
    by_contra h0
    rw [List.getElem?_eq_none (by omega)] at hs
    cases hs
  have hd : ∃ b, data[j]? = some b := by
    have : j < data.length := by omega
    exact ⟨data.get ⟨j, this⟩, List.getElem?_eq_getElem this⟩
  obtain ⟨b, hb⟩ := hd
  have hzmem : (c.item_size, b) ∈ sizes.zip data := by
    have : (sizes.zip data)[j]? = some (c.item_size, b) :=
      List.getElem?_zip_eq_some.mpr ⟨hs, hb⟩
    exact List.mem_iff_getElem?.mpr ⟨j, this⟩
  have := hzip _ hzmem
  rw [hb]
  exact this.2

/-- The positive-size condition for the columns of a freshly built table. -/
theorem new_table_sizes (types : List ComponentTypeId) (sizes : List Nat)
    (hlen : types.length = sizes.length) :
    (ArchetypeTable.new types sizes).columns.map Column.item_size = sizes := by
  simp only [ArchetypeTable.new]
  rw [List.map_map]
  have : (Column.item_size ∘ fun p : ComponentTypeId × Nat => Column.new p.1 p.2) =
      Prod.snd := by
    funext p
    rfl
  rw [this]
  exact List.map_snd_zip _ _ (by omega)

theorem new_table_aligned (types : List ComponentTypeId) (sizes : List Nat) :
    TableAligned (ArchetypeTable.new types sizes) ↔
      ∀ c ∈ (ArchetypeTable.new types sizes).columns, 0 < c.item_size := by
  constructor
  · intro h c hc
    exact (h c hc).1
  · intro h c hc
    refine ⟨h c hc, ?_⟩
    have : c.data = [] := by
      simp only [ArchetypeTable.new] at hc
      obtain ⟨p, _, rfl⟩ := List.mem_map.mp hc
      rfl
    simp [this, ArchetypeTable.new]

/-- A despawned row keeps every column aligned with the shortened entity
list. -/
theorem swap_remove_row_aligned (c : Column) (n pos : Nat)
    (hpos0 : 0 < c.item_size) (hlen : c.data.length = c.item_size * n)
    (hpos : pos < n) :
    (c.swap_remove_row pos).type_id = c.type_id ∧
    (c.swap_remove_row pos).item_size = c.item_size ∧
    (c.swap_remove_row pos).data.length = c.item_size * (n - 1) := by
  have hclen : c.len = n := by
    simp only [Column.len, hlen]
    exact Nat.mul_div_cancel_left n hpos0
  have hmul1 : (pos + 1) * c.item_size ≤ n * c.item_size :=
    Nat.mul_le_mul_right _ (by omega)
  have hmuln : (n - 1) * c.item_size ≤ n * c.item_size :=
    Nat.mul_le_mul_right _ (by omega)
  have hsub : n * c.item_size - (n - 1) * c.item_size = c.item_size := by
    rw [← Nat.sub_mul, show n - (n - 1) = 1 from by omega, Nat.one_mul]
  simp only [Column.swap_remove_row, hclen]
  rw [if_pos (by omega)]
  have hdlen : ∀ (d : List Nat), d.length = c.data.length →
      (d.take ((n - 1) * c.item_size)).length = c.item_size * (n - 1) := by
    intro d hd
    rw [List.length_take, hd, hlen]
    rw [Nat.min_eq_left (by rw [Nat.mul_comm c.item_size n]; exact hmuln)]
    exact Nat.mul_comm _ _
  by_cases hpl : pos ≠ n - 1
  · rw [if_pos hpl]
    refine ⟨rfl, rfl, ?_⟩
    apply hdlen
    rw [writeRange_length]
    have hrepl : ((c.data.drop ((n - 1) * c.item_size)).take c.item_size).length =
        c.item_size := by
      rw [List.length_take, List.length_drop, hlen, Nat.mul_comm c.item_size n, hsub]
      exact Nat.min_self _
    rw [hrepl, hlen, Nat.mul_comm c.item_size n]
    calc pos * c.item_size + c.item_size = (pos + 1) * c.item_size := by ring
    _ ≤ n * c.item_size := hmul1
  · rw [if_neg hpl]
    exact ⟨rfl, rfl, hdlen c.data rfl⟩

/-- `despawn` preserves alignment. -/
theorem despawn_aligned (w : World) (e : Entity) (hw : WorldAligned w) :
    WorldAligned (w.despawn e).2 := by
  simp only [World.despawn]
  cases ha : alGet e w.entity_archetype with
  | none => exact hw
  | some aid =>
    dsimp only
    intro p hp
    rcases mem_alModify _ _ _ p hp with hmem | ⟨t, hget, rfl⟩
    · exact hw p hmem
    · have htal : TableAligned t := hw (aid, t) (alGet_mem _ _ _ hget)
      dsimp only
      simp only [despawnTable]
      cases hpos : listPos e t.entities with
      | none => exact htal
      | some pos =>
        have hposlt : pos < t.entities.length := by
          have := listPos_getElem e t.entities pos hpos
          by_contra h0
          rw [List.getElem?_eq_none (by omega)] at this
          cases this
        have hne : t.entities ≠ [] := by
          intro h0
          rw [h0] at hposlt
          simp at hposlt
        intro c hc
        obtain ⟨c0, hc0, rfl⟩ := List.mem_map.mp hc
        have hal0 := htal c0 hc0
        have := swap_remove_row_aligned c0 t.entities.length pos hal0.1 hal0.2 hposlt
        refine ⟨by rw [this.2.1]; exact hal0.1, ?_⟩
        rw [this.2.2, this.2.1, swapRemove_length t.entities pos hne]

/-- Alignment is a property of the shape only. -/
theorem tableAligned_of_shape (t u : ArchetypeTable) (h : t.shape = u.shape)
    (ha : TableAligned t) : TableAligned u := by
  intro c hc
  have hcols : t.columns.map Column.shape = u.columns.map Column.shape :=
    congrArg (fun q => q.2.2.2) h
  have hent : t.entities.length = u.entities.length := by
    have := congrArg (fun q => q.2.2.1) h
    exact congrArg List.length this
  obtain ⟨j, hj⟩ := List.mem_iff_getElem?.mp hc
  have hms : (t.columns.map Column.shape)[j]? = some c.shape := by
    rw [hcols, List.getElem?_map, hj]
    rfl
  rw [List.getElem?_map] at hms
  cases hc0 : t.columns[j]? with
  | none => rw [hc0] at hms; cases hms
  | some c0 =>
    rw [hc0] at hms
    have hsh : c0.shape = c.shape := Option.some.inj hms
    have hmem0 : c0 ∈ t.columns := List.mem_iff_getElem?.mpr ⟨j, hc0⟩
    have hal := ha c0 hmem0
    have h1 : c0.item_size = c.item_size := congrArg (fun s => s.2.1) hsh
    have h2 : c0.data.length = c.data.length := congrArg (fun s => s.2.2) hsh
    rw [← h1, ← h2, ← hent]
    exact hal

theorem worldAligned_of_shape (w u : World) (h : w.shape = u.shape)
    (hw : WorldAligned w) : WorldAligned u := by
  intro p hp
  have hm : w.archetypes.map (fun q => (q.1, q.2.shape)) =
      u.archetypes.map (fun q => (q.1, q.2.shape)) := congrArg (fun s => s.2.2.2) h
  have hpm : (p.1, p.2.shape) ∈ w.archetypes.map (fun q => (q.1, q.2.shape)) := by
    rw [hm]
    exact List.mem_map_of_mem _ hp
  obtain ⟨q, hq, hqe⟩ := List.mem_map.mp hpm
  have h2 : q.2.shape = p.2.shape := congrArg Prod.snd hqe
  exact tableAligned_of_shape q.2 p.2 h2 (hw q hq)

/-- `merge_shard` preserves alignment (it preserves the whole shape). -/
theorem merge_shard_aligned (w : World) (s : ComponentShard) (hw : WorldAligned w) :
    WorldAligned (w.merge_shard s) := by
  refine worldAligned_of_shape w _ ?_ hw
  rw [merge_shard_eq_mergePairs, mergePairs_shape]

theorem spawn_empty_aligned (w : World) (hw : WorldAligned w) :
    WorldAligned w.spawn_empty.2 :=
  fun p hp => hw p hp

theorem nodup_of_chain_lt (l : List Nat) (h : l.Chain' (· < ·)) : l.Nodup := by
  have hp : l.Pairwise (· < ·) := List.chain'_iff_pairwise.mp h
  exact hp.imp Nat.ne_of_lt

/-- Positivity of all column sizes, from the size map and the blob bounds. -/
theorem cols_sizes_pos (t : ArchetypeTable) (sizes : List Nat) (data : List (List Nat))
    (hmap : t.columns.map Column.item_size = sizes)
    (hlen2 : sizes.length = data.length)
    (hzip : ∀ p ∈ sizes.zip data, 0 < p.1 ∧ p.2.length = p.1) :
    ∀ c ∈ t.columns, 0 < c.item_size := by
  intro c hc
  have hmem : c.item_size ∈ sizes := hmap ▸ List.mem_map_of_mem _ hc
  obtain ⟨j, hj⟩ := List.mem_iff_getElem?.mp hmem
  have hjlt : j < sizes.length := by
    by_contra h0
    rw [List.getElem?_eq_none (by omega)] at hj
    cases hj
  have hjd : j < data.length := by omega
  have hb : data[j]? = some (data.get ⟨j, hjd⟩) := List.getElem?_eq_getElem hjd
  have hzmem : (c.item_size, data.get ⟨j, hjd⟩) ∈ sizes.zip data :=
    List.mem_iff_getElem?.mpr ⟨j, List.getElem?_zip_eq_some.mpr ⟨hj, hb⟩⟩
  exact (hzip _ hzmem).1

/-- `spawn_with_data` preserves alignment when the call is well-formed. -/
theorem spawn_with_data_aligned (w : World) (types : List ComponentTypeId)
    (data : List (List Nat)) (sizes : List Nat)
    (hw : WorldAligned w) (hv : ValidSpawnData w types data sizes) :
    WorldAligned (applyOp w (.spawn_with_data types data sizes)) := by
  obtain ⟨hchain, hbt, hlen, hlens, hzip, hmatch⟩ := hv
  have hnd : types.Nodup := nodup_of_chain_lt types hchain
  simp only [applyOp, World.spawn_with_data, EntityAllocator.allocate,
    World.get_or_create_archetype, hbt]
  rw [if_neg (by omega)]
  dsimp only
  cases hget : alGet types w.type_set_to_archetype with
  | some aid =>
    rw [hget] at hmatch
    dsimp only at hmatch ⊢
    cases htab : alGet aid w.archetypes with
    | none => rw [htab] at hmatch; exact absurd hmatch (by dsimp only; exact id)
    | some t =>
      rw [htab] at hmatch
      dsimp only at hmatch
      obtain ⟨hct, hmap⟩ := hmatch
      intro p hp
      rcases mem_alModify _ _ _ p hp with hmem | ⟨t2, hget2, rfl⟩
      · exact hw p hmem
      · have ht2 : t2 = t := by
          have := hget2.symm.trans htab
          exact Option.some.inj this
        subst ht2
        have hcols : t2.columns.length = types.length := by
          have := congrArg List.length hmap
          rw [List.length_map] at this
          omega
        exact swd_fold_aligned types data t2 w.allocator.next_id hnd hct hlen hcols
          (hw (aid, t2) (alGet_mem _ _ _ htab))
          (cols_sizes_hsz t2 sizes data hmap (by omega) hzip)
  | none =>
    dsimp only
    have hmapnew := new_table_sizes types sizes hlens
    have hnewal : TableAligned (ArchetypeTable.new types sizes) :=
      (new_table_aligned types sizes).mpr
        (cols_sizes_pos _ sizes data hmapnew (by omega) hzip)
    intro p hp
    rcases mem_alModify _ _ _ p hp with hmem | ⟨t2, hget2, rfl⟩
    · rcases mem_alInsert _ _ _ p hmem with rfl | hmem2
      · exact hnewal
      · exact hw p hmem2
    · have ht2 : t2 = ArchetypeTable.new types sizes := by
        have h0 : alGet (ArchetypeTable.new types sizes).id
            (alInsert (ArchetypeTable.new types sizes).id
              (ArchetypeTable.new types sizes) w.archetypes) =
            some (ArchetypeTable.new types sizes) := alGet_alInsert_self _ _ _
        exact Option.some.inj (hget2.symm.trans h0)
      subst ht2
      have hcols : (ArchetypeTable.new types sizes).columns.length = types.length := by
        have := congrArg List.length hmapnew
        rw [List.length_map] at this
        omega
      exact swd_fold_aligned types data _ w.allocator.next_id hnd rfl hlen hcols hnewal
        (cols_sizes_hsz _ sizes data hmapnew (by omega) hzip)

theorem applyOps_aligned (ops : List WorldOp) :
    ∀ (w : World), WorldAligned w → AlignOpsValid w ops →
      WorldAligned (applyOps w ops) := by
  induction ops with
  | nil =>
    intro w hw _
    exact hw
  | cons op rest ih =>
    intro w hw hv
    obtain ⟨h1, h2⟩ := hv
    have hstep : WorldAligned (applyOp w op) := by
      cases op with
      | spawn types sizes => exact h1.elim
      | spawn_empty => exact spawn_empty_aligned w hw
      | spawn_with_data types data sizes =>
        exact spawn_with_data_aligned w types data sizes hw h1
      | despawn e => exact despawn_aligned w e hw
      | merge_shard s => exact merge_shard_aligned w s hw
    exact ih (applyOp w op) hstep h2

/-- C3 as written fails: a bare `World::spawn` appends the entity to the
table's entity list but pushes nothing into the columns, so after the single
operation `spawn([1], [4])` the sole table has one entity and a column with
zero rows. -/
theorem world_column_alignment_counterexample :
    ((applyOps World.new [WorldOp.spawn [1] [4]]).archetypes.map
      (fun p => (p.2.entities.length, p.2.columns.map Column.len))) = [(1, [0])] ∧
    (1 : Nat) ≠ 0 :=
  ⟨by decide, by decide⟩

/-- **C3 (amended)**: after any sequence of `spawn_empty`, well-formed
`spawn_with_data`, `despawn` and `merge_shard` operations from the empty
world — bare `spawn` excluded, and each `spawn_with_data` call carrying
sorted duplicate-free types, parallel slices and blob lengths equal to the
(positive) declared sizes, matching any pre-existing archetype — every
column of every archetype table stores exactly one row per entity of its
table. -/
theorem world_column_alignment (ops : List WorldOp)
    (h : AlignOpsValid World.new ops) :
    ∀ p ∈ (applyOps World.new ops).archetypes, ∀ c ∈ p.2.columns,
      c.len = p.2.entities.length := by
  have hal := applyOps_aligned ops World.new
    (by intro p hp; simp [World.new] at hp) h
  intro p hp c hc
  have h2 := hal p hp c hc
  simp only [Column.len]
  rw [h2.2]
  exact Nat.mul_div_cancel_left _ h2.1

def exAlignOps : List WorldOp :=
  [WorldOp.spawn_with_data [5] [[7, 7]] [2]]

theorem world_column_alignment_witness :
    AlignOpsValid World.new exAlignOps ∧
      Column.len ⟨5, 2, [7, 7]⟩ = ([1] : List Entity).length := by
  have hv : AlignOpsValid World.new exAlignOps :=
    ⟨⟨List.chain'_singleton 5, by decide, rfl, rfl, by decide, trivial⟩, trivial⟩
  refine ⟨hv, ?_⟩
  exact world_column_alignment exAlignOps hv
    (ArchetypeId.from_component_types [5],
      ⟨ArchetypeId.from_component_types [5], [5], [1], [⟨5, 2, [7, 7]⟩]⟩)
    (by decide) ⟨5, 2, [7, 7]⟩ (by decide)

/-! ### Entity→archetype bookkeeping: association-list and swap-remove facts -/

theorem alGet_alRemove_ne {κ ν : Type} [DecidableEq κ] (k k' : κ)
    (l : List (κ × ν)) (h : k' ≠ k) :
    alGet k' (alRemove k l) = alGet k' l := by
  induction l with
  | nil => rfl
  | cons e t ih =>
    simp only [alRemove]
    by_cases he : e.1 = k
    · rw [if_pos he]
      simp only [alGet]
      rw [if_neg (fun h0 : e.1 = k' => h (h0.symm.trans he))]
    · rw [if_neg he]
      simp only [alGet, ih]

theorem alRemove_sublist {κ ν : Type} [DecidableEq κ] (k : κ) (l : List (κ × ν)) :
    List.Sublist (alRemove k l) l := by
  induction l with
  | nil => exact List.Sublist.refl _
  | cons e t ih =>
    simp only [alRemove]
    by_cases he : e.1 = k
    · rw [if_pos he]
      exact List.sublist_cons_self e t
    · rw [if_neg he]
      exact ih.cons₂ e

theorem mem_alRemove {κ ν : Type} [DecidableEq κ] (k : κ) (l : List (κ × ν))
    (p : κ × ν) (h : p ∈ alRemove k l) : p ∈ l :=
  (alRemove_sublist k l).subset h

theorem alRemove_nodup_keys {κ ν : Type} [DecidableEq κ] (k : κ) (l : List (κ × ν))
    (h : (l.map Prod.fst).Nodup) : ((alRemove k l).map Prod.fst).Nodup :=
  List.Nodup.sublist (List.Sublist.map Prod.fst (alRemove_sublist k l)) h

theorem alGet_alRemove_self {κ ν : Type} [DecidableEq κ] (k : κ) (l : List (κ × ν))
    (h : (l.map Prod.fst).Nodup) : alGet k (alRemove k l) = none := by
  induction l with
  | nil => rfl
  | cons e t ih =>
    simp only [List.map_cons, List.nodup_cons] at h
    simp only [alRemove]
    by_cases he : e.1 = k
    · rw [if_pos he]
      apply alGet_eq_none_of_not_mem
      rw [← he]
      exact h.1
    · rw [if_neg he]
      simp only [alGet]
      rw [if_neg he]
      exact ih h.2

theorem alInsert_map_fst {κ ν : Type} [DecidableEq κ] (k : κ) (v : ν)
    (l : List (κ × ν)) :
    (alInsert k v l).map Prod.fst =
      if k ∈ l.map Prod.fst then l.map Prod.fst else l.map Prod.fst ++ [k] := by
  induction l with
  | nil => simp [alInsert]
  | cons e t ih =>
    simp only [alInsert]
    by_cases he : e.1 = k
    · rw [if_pos he, if_pos (by rw [List.map_cons, ← he]; exact List.mem_cons_self _ _)]
      simp [he]
    · rw [if_neg he]
      simp only [List.map_cons, ih]
      by_cases hk : k ∈ t.map Prod.fst
      · rw [if_pos hk, if_pos (List.mem_cons_of_mem _ hk)]
      · rw [if_neg hk, if_neg ?_]
        · rfl
        · intro h0
          rcases List.mem_cons.mp h0 with h1 | h1
          · exact he h1.symm
          · exact hk h1

theorem alInsert_nodup_keys {κ ν : Type} [DecidableEq κ] (k : κ) (v : ν)
    (l : List (κ × ν)) (h : (l.map Prod.fst).Nodup) :
    ((alInsert k v l).map Prod.fst).Nodup := by
  rw [alInsert_map_fst]
  by_cases hk : k ∈ l.map Prod.fst
  · rw [if_pos hk]
    exact h
  · rw [if_neg hk]
    exact h.append (List.nodup_singleton k)
      (fun a ha hb => hk ((List.mem_singleton.mp hb) ▸ ha))

theorem nodup_append_fresh (l : List Nat) (n : Nat) (h : l.Nodup)
    (hf : ∀ e ∈ l, e < n) : (l ++ [n]).Nodup :=
  h.append (List.nodup_singleton n)
    (fun a ha hb => by
      have := hf a ha
      rw [List.mem_singleton.mp hb] at this
      omega)

theorem alGet_of_nodup_mem {κ ν : Type} [DecidableEq κ] (l : List (κ × ν))
    (p : κ × ν) (h : (l.map Prod.fst).Nodup) (hp : p ∈ l) :
    alGet p.1 l = some p.2 := by
  induction l with
  | nil => cases hp
  | cons e t ih =>
    simp only [List.map_cons, List.nodup_cons] at h
    rcases List.mem_cons.mp hp with rfl | hp2
    · simp [alGet]
    · simp only [alGet]
      rw [if_neg ?_]
      · exact ih h.2 hp2
      · intro h0
        exact h.1 (h0 ▸ List.mem_map_of_mem Prod.fst hp2)

theorem mem_alModify_nodup {κ ν : Type} [DecidableEq κ] (k : κ) (f : ν → ν)
    (l : List (κ × ν)) (hnd : (l.map Prod.fst).Nodup) (p : κ × ν)
    (h : p ∈ alModify k f l) :
    (p ∈ l ∧ p.1 ≠ k) ∨ ∃ t, alGet k l = some t ∧ p = (k, f t) := by
  induction l with
  | nil => simp only [alModify] at h; cases h
  | cons e t ih =>
    simp only [List.map_cons, List.nodup_cons] at hnd
    simp only [alModify] at h
    by_cases he : e.1 = k
    · rw [if_pos he] at h
      rcases List.mem_cons.mp h with rfl | hp2
      · exact Or.inr ⟨e.2, by simp [alGet, he], by rw [he]⟩
      · refine Or.inl ⟨List.mem_cons_of_mem _ hp2, ?_⟩
        intro h0
        exact hnd.1 ((he.trans h0.symm) ▸ List.mem_map_of_mem Prod.fst hp2)
    · rw [if_neg he] at h
      rcases List.mem_cons.mp h with rfl | hp2
      · exact Or.inl ⟨List.mem_cons_self _ _, he⟩
      · rcases ih hnd.2 hp2 with ⟨h1, h2⟩ | ⟨v, hv1, hv2⟩
        · exact Or.inl ⟨List.mem_cons_of_mem _ h1, h2⟩
        · exact Or.inr ⟨v, by simp [alGet, he, hv1], hv2⟩

theorem listPos_some_of_mem {α : Type} [DecidableEq α] (x : α) (l : List α)
    (h : x ∈ l) : ∃ pos, listPos x l = some pos := by
  induction l with
  | nil => cases h
  | cons y t ih =>
    simp only [listPos]
    by_cases hy : y = x
    · exact ⟨0, by rw [if_pos hy]⟩
    · rw [if_neg hy]
      rcases List.mem_cons.mp h with rfl | h2
      · exact absurd rfl hy
      · obtain ⟨pos, hp⟩ := ih h2
        exact ⟨pos + 1, by rw [hp]; rfl⟩

theorem mem_of_mem_swapRemove {α : Type} (l : List α) (pos : Nat) (x : α)
    (h : x ∈ swapRemove l pos) : x ∈ l := by
  simp only [swapRemove] at h
  cases hl : l.getLast? with
  | none => rw [hl] at h; exact h
  | some last =>
    rw [hl] at h
    have h2 := (List.dropLast_sublist _).subset h
    rcases List.mem_or_eq_of_mem_set h2 with h3 | rfl
    · exact h3
    · exact List.mem_of_getLast?_eq_some hl

theorem not_mem_swapRemove {α : Type} (l : List α) (pos : Nat) (x : α)
    (hnd : l.Nodup) (hpos : l[pos]? = some x) : x ∉ swapRemove l pos := by
  intro hmem
  have hposlt : pos < l.length := by
    by_contra h0
    rw [List.getElem?_eq_none (by omega)] at hpos
    cases hpos
  have hne : l ≠ [] := by
    intro h0
    subst h0
    simp at hposlt
  simp only [swapRemove] at hmem
  cases hl : l.getLast? with
  | none => exact absurd (List.getLast?_eq_none_iff.mp hl) hne
  | some last =>
    rw [hl] at hmem
    obtain ⟨i, hilt, hieq⟩ := List.getElem_of_mem hmem
    have hilen : i < l.length - 1 := by
      have h3 := hilt
      rw [List.length_dropLast, List.length_set] at h3
      exact h3
    rw [List.getElem_dropLast] at hieq
    have hlast : l[l.length - 1]? = some last := by
      rw [List.getLast?_eq_getLast l hne, Option.some.injEq] at hl
      rw [← hl, List.getLast_eq_getElem]
      exact List.getElem?_eq_getElem (by omega)
    by_cases hip : i = pos
    · subst hip
      rw [List.getElem_set_self (by rw [List.length_set]; omega)] at hieq
      have heq : l[i]? = l[l.length - 1]? := by
        rw [hpos, hlast, hieq]
      have := List.getElem?_inj hposlt hnd heq
      omega
    · rw [List.getElem_set_ne (fun h0 => hip h0.symm)] at hieq
      have heq : l[i]? = l[pos]? := by
        rw [hpos, List.getElem?_eq_getElem (by omega), hieq]
      have := List.getElem?_inj (by omega : i < l.length) hnd heq
      omega

theorem nodup_swapRemove {α : Type} (l : List α) (pos : Nat) (hnd : l.Nodup) :
    (swapRemove l pos).Nodup := by
  simp only [swapRemove]
  cases hl : l.getLast? with
  | none => exact hnd
  | some last =>
    dsimp only
    have hne : l ≠ [] := by
      intro h0
      subst h0
      simp at hl
    by_cases hpos : pos < l.length
    · have hlast : l[l.length - 1]? = some last := by
        rw [List.getLast?_eq_getLast l hne, Option.some.injEq] at hl
        rw [← hl, List.getLast_eq_getElem]
        exact List.getElem?_eq_getElem (by omega)
      rw [List.nodup_iff_injective_getElem]
      rintro ⟨i, hi⟩ ⟨j, hj⟩ hij0
      have hlen : (l.set pos last).dropLast.length = l.length - 1 := by
        rw [List.length_dropLast, List.length_set]
      have hi2 : i < l.length - 1 := hlen ▸ hi
      have hj2 : j < l.length - 1 := hlen ▸ hj
      have hij : ((l.set pos last).dropLast)[i]? = ((l.set pos last).dropLast)[j]? := by
        rw [List.getElem?_eq_getElem hi, List.getElem?_eq_getElem hj]
        exact congrArg some hij0
      rw [List.getElem?_dropLast, List.getElem?_dropLast,
        if_pos (show i < (l.set pos last).length - 1 by rw [List.length_set]; omega),
        if_pos (show j < (l.set pos last).length - 1 by rw [List.length_set]; omega)]
        at hij
      have hval : ∀ (m : Nat), m < l.length - 1 →
          (l.set pos last)[m]? = if m = pos then l[l.length - 1]? else l[m]? := by
        intro m hm
        by_cases hmp : m = pos
        · subst hmp
          rw [if_pos rfl, List.getElem?_set_self (by omega), hlast]
        · rw [if_neg hmp, List.getElem?_set_ne (fun h0 => hmp h0.symm)]
      rw [hval i hi2, hval j hj2] at hij
      by_cases hipos : i = pos
      · by_cases hjpos : j = pos
        · exact Fin.ext (hipos.trans hjpos.symm)
        · rw [if_pos hipos, if_neg hjpos] at hij
          have := List.getElem?_inj (show l.length - 1 < l.length by omega) hnd hij
          omega
      · by_cases hjpos : j = pos
        · rw [if_neg hipos, if_pos hjpos] at hij
          have := List.getElem?_inj (show i < l.length by omega) hnd hij
          omega
        · rw [if_neg hipos, if_neg hjpos] at hij
          have hij2 : i = j :=
            List.getElem?_inj (show i < l.length by omega) hnd hij
          exact Fin.ext hij2
    · rw [List.set_eq_of_length_le (by omega)]
      exact List.Nodup.sublist (List.dropLast_sublist l) hnd

/-- The bookkeeping invariant of `World` used for C4: archetype keys are
unique and registered in the type-set map under their (encoded) type set;
every type-set entry points at an existing table; entity lists are
duplicate-free and below the allocator counter; map keys are unique and
below the counter; table membership and the entity→archetype map agree in
both directions. -/
structure StoreInv (w : World) : Prop where
  keysND : (w.archetypes.map Prod.fst).Nodup
  archReg : ∀ p ∈ w.archetypes,
    alGet p.2.component_types w.type_set_to_archetype = some p.1 ∧
      p.1 = ArchetypeId.from_component_types p.2.component_types
  tsSound : ∀ q ∈ w.type_set_to_archetype, ∃ t, alGet q.2 w.archetypes = some t
  entND : ∀ p ∈ w.archetypes, p.2.entities.Nodup
  entFresh : ∀ p ∈ w.archetypes, ∀ e ∈ p.2.entities, e < w.allocator.next_id
  mapND : (w.entity_archetype.map Prod.fst).Nodup
  mapFresh : ∀ q ∈ w.entity_archetype, q.1 < w.allocator.next_id
  tabSound : ∀ p ∈ w.archetypes, ∀ e ∈ p.2.entities,
    alGet e w.entity_archetype = some p.1
  mapSound : ∀ e aid, alGet e w.entity_archetype = some aid →
    ∃ t, alGet aid w.archetypes = some t ∧ e ∈ t.entities

theorem storeInv_new : StoreInv World.new where
  keysND := List.nodup_nil
  archReg := fun p hp => absurd hp (List.not_mem_nil p)
  tsSound := fun q hq => absurd hq (List.not_mem_nil q)
  entND := fun p hp => absurd hp (List.not_mem_nil p)
  entFresh := fun p hp => absurd hp (List.not_mem_nil p)
  mapND := List.nodup_nil
  mapFresh := fun q hq => absurd hq (List.not_mem_nil q)
  tabSound := fun p hp => absurd hp (List.not_mem_nil p)
  mapSound := fun e aid h => by cases h

/-- Transport a table lookup along a shape equality of worlds. -/
theorem shape_alGet_transport (w u : World) (h : w.shape = u.shape) (aid : Nat)
    (t : ArchetypeTable) (ht : alGet aid w.archetypes = some t) :
    ∃ u_t, alGet aid u.archetypes = some u_t ∧
      u_t.component_types = t.component_types ∧ u_t.entities = t.entities := by
  have harch : w.archetypes.map (fun p => (p.1, ArchetypeTable.shape p.2)) =
      u.archetypes.map (fun p => (p.1, ArchetypeTable.shape p.2)) :=
    congrArg (fun s => s.2.2.2) h
  have e1 : (alGet aid w.archetypes).map ArchetypeTable.shape =
      (alGet aid u.archetypes).map ArchetypeTable.shape := by
    rw [← alGet_map, ← alGet_map, harch]
  rw [ht] at e1
  cases hu : alGet aid u.archetypes with
  | none => rw [hu] at e1; cases e1
  | some u_t =>
    rw [hu] at e1
    have hsh : t.shape = u_t.shape := Option.some.inj e1
    exact ⟨u_t, rfl, (congrArg (fun s => s.2.1) hsh).symm,
      (congrArg (fun s => s.2.2.1) hsh).symm⟩

/-- Transport an archetype-list member along a shape equality of worlds. -/
theorem shape_mem_transport (w u : World) (h : w.shape = u.shape)
    (p : Nat × ArchetypeTable) (hp : p ∈ u.archetypes) :
    ∃ q ∈ w.archetypes, q.1 = p.1 ∧ q.2.component_types = p.2.component_types ∧
      q.2.entities = p.2.entities := by
  have harch : w.archetypes.map (fun r => (r.1, ArchetypeTable.shape r.2)) =
      u.archetypes.map (fun r => (r.1, ArchetypeTable.shape r.2)) :=
    congrArg (fun s => s.2.2.2) h
  have hpm : (p.1, p.2.shape) ∈
      w.archetypes.map (fun r => (r.1, ArchetypeTable.shape r.2)) := by
    rw [harch]
    exact List.mem_map_of_mem _ hp
  obtain ⟨q, hq, hqe⟩ := List.mem_map.mp hpm
  have h1 : q.1 = p.1 := (Prod.ext_iff.mp hqe).1
  have h2 : q.2.shape = p.2.shape := (Prod.ext_iff.mp hqe).2
  exact ⟨q, hq, h1, congrArg (fun s => s.2.1) h2, congrArg (fun s => s.2.2.1) h2⟩

/-- The bookkeeping invariant is a property of the shape only. -/
theorem storeInv_of_shape (w u : World) (h : w.shape = u.shape)
    (hw : StoreInv w) : StoreInv u := by
  have hall : w.allocator.next_id = u.allocator.next_id := congrArg (fun s => s.1) h
  have hea : w.entity_archetype = u.entity_archetype := congrArg (fun s => s.2.1) h
  have hts : w.type_set_to_archetype = u.type_set_to_archetype :=
    congrArg (fun s => s.2.2.1) h
  refine ⟨?_, ?_, ?_, ?_, ?_, ?_, ?_, ?_, ?_⟩
  · rw [← shape_archetype_keys w u h]
    exact hw.keysND
  · intro p hp
    obtain ⟨q, hq, h1, h2, _⟩ := shape_mem_transport w u h p hp
    have := hw.archReg q hq
    rw [h1, h2, hts] at this
    exact this
  · intro q hq
    rw [← hts] at hq
    obtain ⟨t, ht⟩ := hw.tsSound q hq
    obtain ⟨u_t, hu, _, _⟩ := shape_alGet_transport w u h q.2 t ht
    exact ⟨u_t, hu⟩
  · intro p hp
    obtain ⟨q, hq, _, _, h3⟩ := shape_mem_transport w u h p hp
    rw [← h3]
    exact hw.entND q hq
  · intro p hp e he
    obtain ⟨q, hq, _, _, h3⟩ := shape_mem_transport w u h p hp
    rw [← h3] at he
    rw [← hall]
    exact hw.entFresh q hq e he
  · rw [← hea]
    exact hw.mapND
  · intro q hq
    rw [← hea] at hq
    rw [← hall]
    exact hw.mapFresh q hq
  · intro p hp e he
    obtain ⟨q, hq, h1, _, h3⟩ := shape_mem_transport w u h p hp
    rw [← h3] at he
    rw [← hea, ← h1]
    exact hw.tabSound q hq e he
  · intro e aid hget
    rw [← hea] at hget
    obtain ⟨t, ht, hmem⟩ := hw.mapSound e aid hget
    obtain ⟨u_t, hu, _, hent⟩ := shape_alGet_transport w u h aid t ht
    exact ⟨u_t, hu, hent ▸ hmem⟩

/-- `merge_shard` preserves the bookkeeping invariant. -/
theorem merge_shard_storeInv (w : World) (s : ComponentShard) (hw : StoreInv w) :
    StoreInv (w.merge_shard s) := by
  refine storeInv_of_shape w _ ?_ hw
  rw [merge_shard_eq_mergePairs, mergePairs_shape]

theorem merge_shard_entity_archetype (w : World) (s : ComponentShard) :
    (w.merge_shard s).entity_archetype = w.entity_archetype := by
  have h : (w.merge_shard s).shape = w.shape := by
    rw [merge_shard_eq_mergePairs, mergePairs_shape]
  exact congrArg (fun q => q.2.1) h

theorem spawn_empty_storeInv (w : World) (hw : StoreInv w)
    (hnw : w.allocator.next_id + 1 < 2 ^ 64) :
    StoreInv w.spawn_empty.2 := by
  have hmod : (w.allocator.next_id + 1) % 2 ^ 64 = w.allocator.next_id + 1 :=
    Nat.mod_eq_of_lt hnw
  refine ⟨hw.keysND, hw.archReg, hw.tsSound, hw.entND, ?_, hw.mapND, ?_,
    hw.tabSound, hw.mapSound⟩
  · intro p hp e he
    have h1 := hw.entFresh p hp e he
    exact lt_of_lt_of_eq (Nat.lt_succ_of_lt h1) hmod.symm
  · intro q hq
    have h1 := hw.mapFresh q hq
    exact lt_of_lt_of_eq (Nat.lt_succ_of_lt h1) hmod.symm

theorem get_or_create_allocator (w : World) (ts : List ComponentTypeId)
    (sizes : List Nat) :
    (w.get_or_create_archetype ts sizes).2.allocator = w.allocator := by
  simp only [World.get_or_create_archetype]
  cases alGet ts w.type_set_to_archetype <;> rfl

theorem get_or_create_entity_archetype (w : World) (ts : List ComponentTypeId)
    (sizes : List Nat) :
    (w.get_or_create_archetype ts sizes).2.entity_archetype = w.entity_archetype := by
  simp only [World.get_or_create_archetype]
  cases alGet ts w.type_set_to_archetype <;> rfl

/-- The common core of `spawn` and `spawn_with_data`: allocate a fresh id,
locate or create the archetype for the (sorted) type set, rewrite the table
with a function that appends the fresh entity to its entity list, and record
the entity→archetype entry.  The invariant is preserved. -/
theorem spawn_core_storeInv (w : World) (ts : List ComponentTypeId)
    (sizes : List Nat) (tf : ArchetypeTable → ArchetypeTable)
    (htf_ct : ∀ t, (tf t).component_types = t.component_types)
    (htf_ent : ∀ t, (tf t).entities = t.entities ++ [w.allocator.next_id])
    (hw : StoreInv w) (hnw : w.allocator.next_id + 1 < 2 ^ 64) :
    StoreInv
      (let w1 : World := { w with allocator := ⟨(w.allocator.next_id + 1) % 2 ^ 64⟩ }
       let r := w1.get_or_create_archetype ts sizes
       { r.2 with
           archetypes := alModify r.1 tf r.2.archetypes
           entity_archetype :=
             alInsert w.allocator.next_id r.1 r.2.entity_archetype }) := by
  have hmod : (w.allocator.next_id + 1) % 2 ^ 64 = w.allocator.next_id + 1 :=
    Nat.mod_eq_of_lt hnw
  simp only [World.get_or_create_archetype, hmod]
  cases hget : alGet ts w.type_set_to_archetype with
  | some aid =>
    dsimp only
    obtain ⟨t0, ht00⟩ := hw.tsSound (ts, aid) (alGet_mem _ _ _ hget)
    have ht0 : alGet aid w.archetypes = some t0 := ht00
    refine ⟨?_, ?_, ?_, ?_, ?_, ?_, ?_, ?_, ?_⟩ <;> dsimp only
    · rw [alModify_map_fst]
      exact hw.keysND
    · intro p hp
      rcases mem_alModify_nodup aid tf w.archetypes hw.keysND p hp with
        ⟨hmem, _⟩ | ⟨t, hgt, rfl⟩
      · exact hw.archReg p hmem
      · have := hw.archReg (aid, t) (alGet_mem _ _ _ hgt)
        rw [htf_ct t]
        exact this
    · intro q hq
      obtain ⟨t, ht⟩ := hw.tsSound q hq
      by_cases hq2 : q.2 = aid
      · rw [hq2] at ht
        rw [hq2, alGet_alModify_self, ht]
        exact ⟨tf t, rfl⟩
      · rw [alGet_alModify_ne aid q.2 tf w.archetypes hq2]
        exact ⟨t, ht⟩
    · intro p hp
      rcases mem_alModify_nodup aid tf w.archetypes hw.keysND p hp with
        ⟨hmem, _⟩ | ⟨t, hgt, rfl⟩
      · exact hw.entND p hmem
      · rw [htf_ent t]
        exact nodup_append_fresh _ _ (hw.entND (aid, t) (alGet_mem _ _ _ hgt))
          (hw.entFresh (aid, t) (alGet_mem _ _ _ hgt))
    · intro p hp e he
      rcases mem_alModify_nodup aid tf w.archetypes hw.keysND p hp with
        ⟨hmem, _⟩ | ⟨t, hgt, rfl⟩
      · exact Nat.lt_succ_of_lt (hw.entFresh p hmem e he)
      · rw [htf_ent t] at he
        rcases List.mem_append.mp he with h1 | h1
        · exact Nat.lt_succ_of_lt (hw.entFresh (aid, t) (alGet_mem _ _ _ hgt) e h1)
        · rw [List.mem_singleton.mp h1]
          exact Nat.lt_succ_self _
    · exact alInsert_nodup_keys _ _ _ hw.mapND
    · intro q hq
      rcases mem_alInsert _ _ _ q hq with rfl | hmem
      · exact Nat.lt_succ_self _
      · exact Nat.lt_succ_of_lt (hw.mapFresh q hmem)
    · intro p hp e he
      rcases mem_alModify_nodup aid tf w.archetypes hw.keysND p hp with
        ⟨hmem, _⟩ | ⟨t, hgt, rfl⟩
      · have h1 := hw.tabSound p hmem e he
        have h2 : e < w.allocator.next_id :=
          hw.mapFresh (e, p.1) (alGet_mem _ _ _ h1)
        rw [alGet_alInsert_ne _ _ _ _ (Nat.ne_of_lt h2)]
        exact h1
      · rw [htf_ent t] at he
        rcases List.mem_append.mp he with h1 | h1
        · have h2 := hw.tabSound (aid, t) (alGet_mem _ _ _ hgt) e h1
          have h3 : e < w.allocator.next_id :=
            hw.mapFresh (e, aid) (alGet_mem _ _ _ h2)
          rw [alGet_alInsert_ne _ _ _ _ (Nat.ne_of_lt h3)]
          exact h2
        · rw [List.mem_singleton.mp h1]
          exact alGet_alInsert_self _ _ _
    · intro e aid' hget'
      by_cases he : e = w.allocator.next_id
      · subst he
        rw [alGet_alInsert_self] at hget'
        obtain rfl : aid = aid' := Option.some.inj hget'
        rw [alGet_alModify_self, ht0]
        exact ⟨tf t0, rfl, by rw [htf_ent t0]; exact List.mem_append_right _ (List.mem_singleton.mpr rfl)⟩
      · rw [alGet_alInsert_ne _ _ _ _ he] at hget'
        obtain ⟨t', ht', hm'⟩ := hw.mapSound e aid' hget'
        by_cases haid : aid' = aid
        · subst haid
          rw [alGet_alModify_self, ht']
          exact ⟨tf t', rfl, by rw [htf_ent t']; exact List.mem_append_left _ hm'⟩
        · rw [alGet_alModify_ne aid aid' tf w.archetypes haid]
          exact ⟨t', ht', hm'⟩
  | none =>
    dsimp only
    have hnotmem : (ArchetypeTable.new ts sizes).id ∉ w.archetypes.map Prod.fst := by
      intro hmem
      obtain ⟨p, hp, hpk⟩ := List.mem_map.mp hmem
      obtain ⟨h1, h2⟩ := hw.archReg p hp
      have hct : p.2.component_types = ts := by
        apply Encodable.encode_injective
        have : ArchetypeId.from_component_types p.2.component_types =
            ArchetypeId.from_component_types ts := by
          rw [← h2, hpk]
          rfl
        exact this
      rw [hct, hget] at h1
      cases h1
    have hfreshkey : alGet (ArchetypeTable.new ts sizes).id w.archetypes = none :=
      alGet_eq_none_of_not_mem _ _ hnotmem
    have hkeys1 : ((alInsert (ArchetypeTable.new ts sizes).id
        (ArchetypeTable.new ts sizes) w.archetypes).map Prod.fst).Nodup :=
      alInsert_nodup_keys _ _ _ hw.keysND
    have hNewCT : (ArchetypeTable.new ts sizes).component_types = ts := rfl
    have hNewEnt : (ArchetypeTable.new ts sizes).entities = [] := rfl
    have hgetins : alGet (ArchetypeTable.new ts sizes).id
        (alInsert (ArchetypeTable.new ts sizes).id (ArchetypeTable.new ts sizes)
          w.archetypes) = some (ArchetypeTable.new ts sizes) :=
      alGet_alInsert_self _ _ _
    refine ⟨?_, ?_, ?_, ?_, ?_, ?_, ?_, ?_, ?_⟩ <;> dsimp only
    · rw [alModify_map_fst]
      exact hkeys1
    · intro p hp
      rcases mem_alModify_nodup _ tf _ hkeys1 p hp with
        ⟨hmem, hne⟩ | ⟨t, hgt, rfl⟩
      · rcases mem_alInsert _ _ _ p hmem with rfl | hmem2
        · exact absurd rfl hne
        · obtain ⟨h1, h2⟩ := hw.archReg p hmem2
          have hcts : p.2.component_types ≠ ts := by
            intro h0
            rw [h0, hget] at h1
            cases h1
          rw [alGet_alInsert_ne _ _ _ _ hcts]
          exact ⟨h1, h2⟩
      · obtain rfl : ArchetypeTable.new ts sizes = t :=
          Option.some.inj (hgetins.symm.trans hgt)
        rw [htf_ct, hNewCT]
        exact ⟨alGet_alInsert_self _ _ _, rfl⟩
    · intro q hq
      rcases mem_alInsert _ _ _ q hq with rfl | hmem
      · rw [alGet_alModify_self, hgetins]
        exact ⟨tf (ArchetypeTable.new ts sizes), rfl⟩
      · obtain ⟨t, ht⟩ := hw.tsSound q hmem
        have hqne : q.2 ≠ (ArchetypeTable.new ts sizes).id := by
          intro h0
          rw [h0, hfreshkey] at ht
          cases ht
        rw [alGet_alModify_ne _ _ _ _ hqne, alGet_alInsert_ne _ _ _ _ hqne]
        exact ⟨t, ht⟩
    · intro p hp
      rcases mem_alModify_nodup _ tf _ hkeys1 p hp with
        ⟨hmem, hne⟩ | ⟨t, hgt, rfl⟩
      · rcases mem_alInsert _ _ _ p hmem with rfl | hmem2
        · rw [hNewEnt]
          exact List.nodup_nil
        · exact hw.entND p hmem2
      · obtain rfl : ArchetypeTable.new ts sizes = t :=
          Option.some.inj (hgetins.symm.trans hgt)
        rw [htf_ent, hNewEnt]
        exact List.nodup_singleton _
    · intro p hp e he
      rcases mem_alModify_nodup _ tf _ hkeys1 p hp with
        ⟨hmem, hne⟩ | ⟨t, hgt, rfl⟩
      · rcases mem_alInsert _ _ _ p hmem with rfl | hmem2
        · rw [hNewEnt] at he
          cases he
        · exact Nat.lt_succ_of_lt (hw.entFresh p hmem2 e he)
      · obtain rfl : ArchetypeTable.new ts sizes = t :=
          Option.some.inj (hgetins.symm.trans hgt)
        rw [htf_ent, hNewEnt] at he
        have he2 : e = w.allocator.next_id := List.mem_singleton.mp (by simpa using he)
        rw [he2]
        exact Nat.lt_succ_self _
    · exact alInsert_nodup_keys _ _ _ hw.mapND
    · intro q hq
      rcases mem_alInsert _ _ _ q hq with rfl | hmem
      · exact Nat.lt_succ_self _
      · exact Nat.lt_succ_of_lt (hw.mapFresh q hmem)
    · intro p hp e he
      rcases mem_alModify_nodup _ tf _ hkeys1 p hp with
        ⟨hmem, hne⟩ | ⟨t, hgt, rfl⟩
      · rcases mem_alInsert _ _ _ p hmem with rfl | hmem2
        · rw [hNewEnt] at he
          cases he
        · have h1 := hw.tabSound p hmem2 e he
          have h2 : e < w.allocator.next_id :=
            hw.mapFresh (e, p.1) (alGet_mem _ _ _ h1)
          rw [alGet_alInsert_ne _ _ _ _ (Nat.ne_of_lt h2)]
          exact h1
      · obtain rfl : ArchetypeTable.new ts sizes = t :=
          Option.some.inj (hgetins.symm.trans hgt)
        rw [htf_ent, hNewEnt] at he
        have he2 : e = w.allocator.next_id := List.mem_singleton.mp (by simpa using he)
        rw [he2]
        exact alGet_alInsert_self _ _ _
    · intro e aid' hget'
      by_cases he : e = w.allocator.next_id
      · subst he
        rw [alGet_alInsert_self] at hget'
        obtain rfl : (ArchetypeTable.new ts sizes).id = aid' :=
          Option.some.inj hget'
        rw [alGet_alModify_self, hgetins]
        refine ⟨tf (ArchetypeTable.new ts sizes), rfl, ?_⟩
        rw [htf_ent, hNewEnt]
        exact List.mem_singleton.mpr rfl
      · rw [alGet_alInsert_ne _ _ _ _ he] at hget'
        obtain ⟨t', ht', hm'⟩ := hw.mapSound e aid' hget'
        have hne' : aid' ≠ (ArchetypeTable.new ts sizes).id := by
          intro h0
          rw [h0, hfreshkey] at ht'
          cases ht'
        rw [alGet_alModify_ne _ _ _ _ hne', alGet_alInsert_ne _ _ _ _ hne']
        exact ⟨t', ht', hm'⟩

/-- `spawn` preserves the bookkeeping invariant. -/
theorem spawn_storeInv (w : World) (types : List ComponentTypeId)
    (sizes : List Nat) (hw : StoreInv w)
    (hnw : w.allocator.next_id + 1 < 2 ^ 64) :
    StoreInv (w.spawn types sizes).2 :=
  spawn_core_storeInv w types sizes
    (fun table => { table with entities := table.entities ++ [w.allocator.next_id] })
    (fun _ => rfl) (fun _ => rfl) hw hnw

/-- The value and world produced by a successful `spawn_with_data`. -/
theorem spawn_with_data_char (w : World) (types : List ComponentTypeId)
    (data : List (List Nat)) (sizes : List Nat) (r : Entity × World)
    (hr : w.spawn_with_data types data sizes = some r) :
    r = (w.allocator.next_id,
      let w1 : World := { w with allocator := ⟨(w.allocator.next_id + 1) % 2 ^ 64⟩ }
      let rr := w1.get_or_create_archetype (btreeOfList types) sizes
      { rr.2 with
          archetypes := alModify rr.1
            (fun table =>
              (types.zip data).foldl pushComponentData
                { table with entities := table.entities ++ [w.allocator.next_id] })
            rr.2.archetypes
          entity_archetype :=
            alInsert w.allocator.next_id rr.1 rr.2.entity_archetype }) := by
  simp only [World.spawn_with_data, EntityAllocator.allocate] at hr
  by_cases hlen : types.length ≠ data.length ∨ types.length ≠ sizes.length
  · rw [if_pos hlen] at hr
    cases hr
  · rw [if_neg hlen] at hr
    exact (Option.some.inj hr).symm

/-- `spawn_with_data` preserves the bookkeeping invariant. -/
theorem spawn_with_data_storeInv (w : World) (types : List ComponentTypeId)
    (data : List (List Nat)) (sizes : List Nat) (hw : StoreInv w)
    (hnw : w.allocator.next_id + 1 < 2 ^ 64) :
    StoreInv (applyOp w (.spawn_with_data types data sizes)) := by
  simp only [applyOp]
  cases hr : w.spawn_with_data types data sizes with
  | none => exact hw
  | some r =>
    have hc := spawn_with_data_char w types data sizes r hr
    dsimp only
    rw [hc]
    exact spawn_core_storeInv w (btreeOfList types) sizes
      (fun table =>
        (types.zip data).foldl pushComponentData
          { table with entities := table.entities ++ [w.allocator.next_id] })
      (fun t => (foldPush_frame _ _).1) (fun t => (foldPush_frame _ _).2) hw hnw

/-- `despawn` preserves the bookkeeping invariant. -/
theorem despawn_storeInv (w : World) (e0 : Entity) (hw : StoreInv w) :
    StoreInv (w.despawn e0).2 := by
  simp only [World.despawn]
  cases hget : alGet e0 w.entity_archetype with
  | none => exact hw
  | some aid =>
    dsimp only
    obtain ⟨t, ht, hmem⟩ := hw.mapSound e0 aid hget
    obtain ⟨pos, hpos⟩ := listPos_some_of_mem e0 t.entities hmem
    have hposget : t.entities[pos]? = some e0 := listPos_getElem e0 t.entities pos hpos
    have hposlt : pos < t.entities.length := by
      by_contra h0
      rw [List.getElem?_eq_none (by omega)] at hposget
      cases hposget
    have htmem : (aid, t) ∈ w.archetypes := alGet_mem _ _ _ ht
    have htnd : t.entities.Nodup := hw.entND (aid, t) htmem
    have hdf : despawnTable e0 t =
        { t with entities := swapRemove t.entities pos,
                 columns := t.columns.map fun c => c.swap_remove_row pos } := by
      simp only [despawnTable]
      rw [hpos]
    refine ⟨?_, ?_, ?_, ?_, ?_, ?_, ?_, ?_, ?_⟩ <;> dsimp only
    · rw [alModify_map_fst]
      exact hw.keysND
    · intro p hp
      rcases mem_alModify_nodup aid _ w.archetypes hw.keysND p hp with
        ⟨hmem2, _⟩ | ⟨t1, hgt, rfl⟩
      · exact hw.archReg p hmem2
      · obtain rfl : t = t1 := Option.some.inj (ht.symm.trans hgt)
        rw [hdf]
        exact hw.archReg (aid, t) htmem
    · intro q hq
      obtain ⟨t1, ht1⟩ := hw.tsSound q hq
      by_cases hq2 : q.2 = aid
      · rw [hq2] at ht1 ⊢
        rw [alGet_alModify_self, ht1]
        exact ⟨_, rfl⟩
      · rw [alGet_alModify_ne _ _ _ _ hq2]
        exact ⟨t1, ht1⟩
    · intro p hp
      rcases mem_alModify_nodup aid _ w.archetypes hw.keysND p hp with
        ⟨hmem2, _⟩ | ⟨t1, hgt, rfl⟩
      · exact hw.entND p hmem2
      · obtain rfl : t = t1 := Option.some.inj (ht.symm.trans hgt)
        rw [hdf]
        exact nodup_swapRemove _ _ htnd
    · intro p hp e he
      rcases mem_alModify_nodup aid _ w.archetypes hw.keysND p hp with
        ⟨hmem2, _⟩ | ⟨t1, hgt, rfl⟩
      · exact hw.entFresh p hmem2 e he
      · obtain rfl : t = t1 := Option.some.inj (ht.symm.trans hgt)
        rw [hdf] at he
        have he2 : e ∈ swapRemove t.entities pos := he
        exact hw.entFresh (aid, t) htmem e (mem_of_mem_swapRemove _ _ _ he2)
    · exact alRemove_nodup_keys _ _ hw.mapND
    · intro q hq
      exact hw.mapFresh q (mem_alRemove _ _ _ hq)
    · intro p hp e he
      rcases mem_alModify_nodup aid _ w.archetypes hw.keysND p hp with
        ⟨hmem2, hne⟩ | ⟨t1, hgt, rfl⟩
      · have h1 := hw.tabSound p hmem2 e he
        have he0 : e ≠ e0 := by
          intro h0
          rw [h0, hget] at h1
          exact hne (Option.some.inj h1).symm
        rw [alGet_alRemove_ne _ _ _ he0]
        exact h1
      · obtain rfl : t = t1 := Option.some.inj (ht.symm.trans hgt)
        rw [hdf] at he
        have he2 : e ∈ swapRemove t.entities pos := he
        have he0 : e ≠ e0 :=
          fun h0 => not_mem_swapRemove _ _ _ htnd hposget (h0 ▸ he2)
        have h1 := hw.tabSound (aid, t) htmem e (mem_of_mem_swapRemove _ _ _ he2)
        rw [alGet_alRemove_ne _ _ _ he0]
        exact h1
    · intro e aid2 hget2
      by_cases he0 : e = e0
      · subst he0
        rw [alGet_alRemove_self _ _ hw.mapND] at hget2
        cases hget2
      · rw [alGet_alRemove_ne _ _ _ he0] at hget2
        obtain ⟨t2, ht2, hm2⟩ := hw.mapSound e aid2 hget2
        by_cases haid : aid2 = aid
        · subst haid
          obtain rfl : t = t2 := Option.some.inj (ht.symm.trans ht2)
          rw [alGet_alModify_self, ht]
          refine ⟨_, rfl, ?_⟩
          rw [hdf]
          refine mem_swapRemove t.entities pos e hm2 hposlt ?_
          rw [hposget]
          exact fun h0 => he0 (Option.some.inj h0).symm
        · rw [alGet_alModify_ne _ _ _ _ haid]
          exact ⟨t2, ht2, hm2⟩

/-- Every operation advances the allocator by at most one. -/
theorem applyOp_next_id (w : World) (op : WorldOp)
    (hnw : w.allocator.next_id + 1 < 2 ^ 64) :
    (applyOp w op).allocator.next_id ≤ w.allocator.next_id + 1 := by
  have hmod : (w.allocator.next_id + 1) % 2 ^ 64 = w.allocator.next_id + 1 :=
    Nat.mod_eq_of_lt hnw
  cases op with
  | spawn types sizes =>
    have h1 : (w.spawn types sizes).2.allocator =
        (({ w with allocator := ⟨(w.allocator.next_id + 1) % 2 ^ 64⟩ } :
          World).get_or_create_archetype types sizes).2.allocator := rfl
    show (w.spawn types sizes).2.allocator.next_id ≤ _
    rw [h1, get_or_create_allocator]
    exact Nat.le_of_eq hmod
  | spawn_empty =>
    show (w.allocator.next_id + 1) % 2 ^ 64 ≤ w.allocator.next_id + 1
    exact Nat.le_of_eq hmod
  | spawn_with_data types data sizes =>
    simp only [applyOp]
    cases hr : w.spawn_with_data types data sizes with
    | none => exact Nat.le_succ _
    | some r =>
      have hc := spawn_with_data_char w types data sizes r hr
      dsimp only
      rw [hc]
      have h1 : (({ w with allocator := ⟨(w.allocator.next_id + 1) % 2 ^ 64⟩ } :
          World).get_or_create_archetype (btreeOfList types) sizes).2.allocator =
          ({ w with allocator := ⟨(w.allocator.next_id + 1) % 2 ^ 64⟩ } :
            World).allocator :=
        get_or_create_allocator _ _ _
      show (({ w with allocator := ⟨(w.allocator.next_id + 1) % 2 ^ 64⟩ } :
          World).get_or_create_archetype (btreeOfList types) sizes).2.allocator.next_id ≤ _
      rw [h1]
      exact Nat.le_of_eq hmod
  | despawn e =>
    simp only [applyOp, World.despawn]
    cases alGet e w.entity_archetype <;> exact Nat.le_succ _
  | merge_shard s =>
    have h : (w.merge_shard s).allocator.next_id = w.allocator.next_id :=
      congrArg (fun q => q.1)
        (show (w.merge_shard s).shape = w.shape by
          rw [merge_shard_eq_mergePairs, mergePairs_shape])
    show (w.merge_shard s).allocator.next_id ≤ _
    rw [h]
    exact Nat.le_succ _

/-- Every operation preserves the bookkeeping invariant (no wrap). -/
theorem applyOp_storeInv (w : World) (op : WorldOp) (hw : StoreInv w)
    (hnw : w.allocator.next_id + 1 < 2 ^ 64) :
    StoreInv (applyOp w op) := by
  cases op with
  | spawn types sizes => exact spawn_storeInv w types sizes hw hnw
  | spawn_empty => exact spawn_empty_storeInv w hw hnw
  | spawn_with_data types data sizes =>
    exact spawn_with_data_storeInv w types data sizes hw hnw
  | despawn e => exact despawn_storeInv w e hw
  | merge_shard s => exact merge_shard_storeInv w s hw

theorem applyOps_storeInv (ops : List WorldOp) :
    ∀ w, StoreInv w → w.allocator.next_id + ops.length < 2 ^ 64 →
      StoreInv (applyOps w ops) := by
  induction ops with
  | nil =>
    intro w hw _
    exact hw
  | cons op rest ih =>
    intro w hw hb
    simp only [List.length_cons] at hb
    have hnw : w.allocator.next_id + 1 < 2 ^ 64 := by omega
    have h2 := applyOp_next_id w op hnw
    exact ih (applyOp w op) (applyOp_storeInv w op hw hnw) (by omega)

/-- The entity returned by one operation, when the operation registers the
entity in an archetype (`spawn_empty` allocates but registers nothing, so it
contributes no entity here). -/
def opSpawned (w : World) : WorldOp → List Entity
  | .spawn _ _ => [w.allocator.next_id]
  | .spawn_with_data types data sizes =>
    match w.spawn_with_data types data sizes with
    | some r => [r.1]
    | none => []
  | _ => []

/-- Live entities after one operation: previously live entities minus the
despawned one, plus the newly registered entity. -/
def stepLive (w : World) (live : List Entity) : WorldOp → List Entity
  | .despawn e => live.filter (fun x => x ≠ e)
  | op => live ++ opSpawned w op

def opsLive : World → List Entity → List WorldOp → List Entity
  | _, live, [] => live
  | w, live, op :: rest => opsLive (applyOp w op) (stepLive w live op) rest

theorem spawn_entity_archetype (w : World) (types : List ComponentTypeId)
    (sizes : List Nat) :
    (w.spawn types sizes).1 = w.allocator.next_id ∧
    (w.spawn types sizes).2.entity_archetype =
      alInsert w.allocator.next_id
        (({ w with allocator := ⟨(w.allocator.next_id + 1) % 2 ^ 64⟩ } :
          World).get_or_create_archetype types sizes).1
        w.entity_archetype := by
  refine ⟨rfl, ?_⟩
  have h1 : (w.spawn types sizes).2.entity_archetype =
      alInsert w.allocator.next_id
        (({ w with allocator := ⟨(w.allocator.next_id + 1) % 2 ^ 64⟩ } :
          World).get_or_create_archetype types sizes).1
        (({ w with allocator := ⟨(w.allocator.next_id + 1) % 2 ^ 64⟩ } :
          World).get_or_create_archetype types sizes).2.entity_archetype := rfl
  rw [h1, get_or_create_entity_archetype]

/-- One step of the liveness argument: every live entity stays in the
entity→archetype map. -/
theorem stepLive_mapped (w : World) (live : List Entity) (op : WorldOp)
    (hw : StoreInv w)
    (hl : ∀ e ∈ live, alGet e w.entity_archetype ≠ none) :
    ∀ e ∈ stepLive w live op, alGet e (applyOp w op).entity_archetype ≠ none := by
  cases op with
  | spawn types sizes =>
    intro e he
    simp only [stepLive, opSpawned] at he
    show alGet e (w.spawn types sizes).2.entity_archetype ≠ none
    rw [(spawn_entity_archetype w types sizes).2]
    rcases List.mem_append.mp he with h1 | h2
    · have hm := hl e h1
      cases hg : alGet e w.entity_archetype with
      | none => exact absurd hg hm
      | some aid =>
        have hfr : e < w.allocator.next_id :=
          hw.mapFresh (e, aid) (alGet_mem _ _ _ hg)
        rw [alGet_alInsert_ne _ _ _ _ (Nat.ne_of_lt hfr), hg]
        exact Option.some_ne_none _
    · rw [List.mem_singleton.mp h2, alGet_alInsert_self]
      exact Option.some_ne_none _
  | spawn_empty =>
    intro e he
    simp only [stepLive, opSpawned, List.append_nil] at he
    exact hl e he
  | spawn_with_data types data sizes =>
    intro e he
    simp only [stepLive, opSpawned] at he
    simp only [applyOp]
    cases hr : w.spawn_with_data types data sizes with
    | none =>
      rw [hr] at he
      simp only [List.append_nil] at he
      exact hl e he
    | some r =>
      rw [hr] at he
      have hc := spawn_with_data_char w types data sizes r hr
      have hre : r.1 = w.allocator.next_id ∧
          r.2.entity_archetype = alInsert w.allocator.next_id
            (({ w with allocator := ⟨(w.allocator.next_id + 1) % 2 ^ 64⟩ } :
              World).get_or_create_archetype (btreeOfList types) sizes).1
            w.entity_archetype := by
        rw [hc]
        dsimp only
        refine ⟨rfl, ?_⟩
        rw [get_or_create_entity_archetype]
      dsimp only
      rw [hre.2]
      rcases List.mem_append.mp he with h1 | h2
      · have hm := hl e h1
        cases hg : alGet e w.entity_archetype with
        | none => exact absurd hg hm
        | some aid =>
          have hfr : e < w.allocator.next_id :=
            hw.mapFresh (e, aid) (alGet_mem _ _ _ hg)
          rw [alGet_alInsert_ne _ _ _ _ (Nat.ne_of_lt hfr), hg]
          exact Option.some_ne_none _
      · rw [List.mem_singleton.mp h2, hre.1, alGet_alInsert_self]
        exact Option.some_ne_none _
  | despawn e0 =>
    intro e he
    simp only [stepLive] at he
    have hmem := List.mem_filter.mp he
    have hne : e ≠ e0 := by simpa using hmem.2
    simp only [applyOp, World.despawn]
    cases hg0 : alGet e0 w.entity_archetype with
    | none => exact hl e hmem.1
    | some aid =>
      dsimp only
      rw [alGet_alRemove_ne _ _ _ hne]
      exact hl e hmem.1
  | merge_shard s =>
    intro e he
    simp only [stepLive, opSpawned, List.append_nil] at he
    show alGet e (w.merge_shard s).entity_archetype ≠ none
    rw [merge_shard_entity_archetype]
    exact hl e he

theorem opsLive_mapped (ops : List WorldOp) :
    ∀ w live, StoreInv w → w.allocator.next_id + ops.length < 2 ^ 64 →
      (∀ e ∈ live, alGet e w.entity_archetype ≠ none) →
      ∀ e ∈ opsLive w live ops,
        alGet e (applyOps w ops).entity_archetype ≠ none := by
  induction ops with
  | nil =>
    intro w live _ _ hl
    exact hl
  | cons op rest ih =>
    intro w live hw hb hl
    simp only [List.length_cons] at hb
    have hnw : w.allocator.next_id + 1 < 2 ^ 64 := by omega
    have h2 := applyOp_next_id w op hnw
    exact ih (applyOp w op) (stepLive w live op)
      (applyOp_storeInv w op hw hnw) (by omega)
      (stepLive_mapped w live op hw hl)

/-- C4 as written fails for `spawn_empty`: it returns entity 1, which is
never despawned, yet the entity→archetype map has no entry for it. -/
theorem entity_archetype_totality_counterexample :
    (World.new.spawn_empty).1 = 1 ∧
      (World.new.spawn_empty).2.archetype_of 1 = none :=
  ⟨rfl, rfl⟩

/-- **C4 (amended)**: restricted to entities registered in an archetype —
those returned by `spawn` or a successful `spawn_with_data`, but not by
`spawn_empty`, and not despawned since — and to op sequences short enough
for the u64 allocator not to wrap: every such live entity resolves through
`entity_archetype` to an archetype id whose table exists and lists the
entity, and that table is the only one listing it. -/
theorem entity_archetype_totality (ops : List WorldOp)
    (hlen : ops.length < 2 ^ 64 - 1) :
    ∀ e ∈ opsLive World.new [] ops,
      ∃ aid t, (applyOps World.new ops).archetype_of e = some aid ∧
        (applyOps World.new ops).archetype aid = some t ∧ e ∈ t.entities ∧
        ∀ p ∈ (applyOps World.new ops).archetypes, e ∈ p.2.entities →
          p = (aid, t) := by
  have hb : World.new.allocator.next_id + ops.length < 2 ^ 64 := by
    show 1 + ops.length < 2 ^ 64
    omega
  have hsi := applyOps_storeInv ops World.new storeInv_new hb
  have hlm := opsLive_mapped ops World.new [] storeInv_new hb
    (fun e he => absurd he (List.not_mem_nil e))
  intro e he
  have hne := hlm e he
  cases hget : alGet e (applyOps World.new ops).entity_archetype with
  | none => exact absurd hget hne
  | some aid =>
    obtain ⟨t, ht, hmem⟩ := hsi.mapSound e aid hget
    refine ⟨aid, t, hget, ht, hmem, ?_⟩
    intro p hp hep
    have h1 : alGet e (applyOps World.new ops).entity_archetype = some p.1 :=
      hsi.tabSound p hp e hep
    have h2 : p.1 = aid := Option.some.inj (h1.symm.trans hget)
    have h3 : alGet p.1 (applyOps World.new ops).archetypes = some p.2 :=
      alGet_of_nodup_mem _ p hsi.keysND hp
    rw [h2] at h3
    have h4 : p.2 = t := Option.some.inj (h3.symm.trans ht)
    exact Prod.ext_iff.mpr ⟨h2, h4⟩

def exLiveOps : List WorldOp :=
  [WorldOp.spawn [5] [2], WorldOp.despawn 1, WorldOp.spawn [7] [4]]

theorem entity_archetype_totality_witness :
    exLiveOps.length < 2 ^ 64 - 1 ∧
      (2 : Nat) ∈ opsLive World.new [] exLiveOps ∧
      ∃ aid t, (applyOps World.new exLiveOps).archetype_of 2 = some aid ∧
        (applyOps World.new exLiveOps).archetype aid = some t ∧
        (2 : Nat) ∈ t.entities ∧
        ∀ p ∈ (applyOps World.new exLiveOps).archetypes, (2 : Nat) ∈ p.2.entities →
          p = (aid, t) :=
  ⟨by decide, by decide,
    entity_archetype_totality exLiveOps (by decide) 2 (by decide)⟩

end Engine
